import Mathlib

/-!
Verification of the chunking core (`src/borg/chunker.pyx`).

The development shallowly embeds the source file's components:

* the `BARREL_SHIFT` C macro and the buzhash rolling-hash primitives
  (`_buzhash`, `_buzhash_update`, `buzhash_init_table`, the exported
  `buzhash` / `buzhash_update` wrappers and the hard-coded base table);
* the failing chunker `ChunkerFailing`;
* the fixed-size chunker `ChunkerFixed`;
* the sparse-range enumerator `sparsemap`;
* the content-defined chunker `Chunker` (`fill` / `process` / `chunkify` /
  `__next__`) as a state machine over a byte source, parameterised by a
  read-granularity schedule, together with a pure reference cutter that the
  machine is proved equivalent to.

Machine integers are modelled as `Nat` with explicit reduction `% 2 ^ 32`
where 32-bit overflow matters.  Python byte strings are `List Nat` (each
element a byte value).  Loops whose termination depends on run-time state
are modelled with an explicit fuel parameter returning `Option`; the
theorems prove the canonical fuel is always sufficient on real runs.
-/

namespace BorgChunker

/-- The C macro
`#define BARREL_SHIFT(v, shift) (((v) << (shift)) | ((v) >> (((32 - (shift)) & 0x1f))))`
on `uint32_t` arguments: the left shift is truncated to 32 bits, and for
`shift ≤ 32` the C expression `(32 - shift) & 0x1f` agrees with the `Nat`
expression below. -/
def BARREL_SHIFT (v shift : Nat) : Nat :=
  ((v <<< shift) % 2 ^ 32) ||| (v >>> ((32 - shift) &&& 31))

theorem and31_eq_mod (n : Nat) : n &&& 31 = n % 32 := by
  have h := Nat.and_pow_two_sub_one_eq_mod n 5
  norm_num at h
  exact h

theorem BARREL_SHIFT_lt (v shift : Nat) (hv : v < 2 ^ 32) :
    BARREL_SHIFT v shift < 2 ^ 32 := by
  unfold BARREL_SHIFT
  apply Nat.or_lt_two_pow
  · exact Nat.mod_lt _ (by norm_num)
  · calc v >>> ((32 - shift) &&& 31) = v / 2 ^ ((32 - shift) &&& 31) :=
        Nat.shiftRight_eq_div_pow _ _
      _ ≤ v := Nat.div_le_self _ _
      _ < 2 ^ 32 := hv

theorem testBit_BARREL_SHIFT (v s i : Nat) (hv : v < 2 ^ 32) (hs : s < 32)
    (hi : i < 32) :
    (BARREL_SHIFT v s).testBit i = v.testBit ((i + 32 - s) % 32) := by
  unfold BARREL_SHIFT
  rw [Nat.testBit_lor, Nat.testBit_mod_two_pow, Nat.testBit_shiftLeft,
    Nat.testBit_shiftRight, and31_eq_mod]
  rcases Nat.eq_zero_or_pos s with hs0 | hs0
  · subst hs0
    have e1 : (32 - 0) % 32 = 0 := by norm_num
    have e2 : (i + 32 - 0) % 32 = i := by omega
    rw [e1, e2]
    simp [hi]
  · have h32s : (32 - s) % 32 = 32 - s := Nat.mod_eq_of_lt (by omega)
    rw [h32s]
    by_cases hge : s ≤ i
    · have h1 : (i + 32 - s) % 32 = i - s := by omega
      rw [h1]
      have h2 : v.testBit (32 - s + i) = false :=
        Nat.testBit_lt_two_pow (lt_of_lt_of_le hv (Nat.pow_le_pow_right (by norm_num) (by omega)))
      rw [h2]
      simp [hi, hge]
    · have h1 : (i + 32 - s) % 32 = 32 - s + i := by omega
      rw [h1]
      simp [hi, hge]

theorem testBit_BARREL_SHIFT_high (v s i : Nat) (hv : v < 2 ^ 32) (hi : 32 ≤ i) :
    (BARREL_SHIFT v s).testBit i = false :=
  Nat.testBit_lt_two_pow
    (lt_of_lt_of_le (BARREL_SHIFT_lt v s hv) (Nat.pow_le_pow_right (by norm_num) hi))

theorem BARREL_SHIFT_xor (a b s : Nat) (ha : a < 2 ^ 32) (hb : b < 2 ^ 32)
    (hs : s < 32) :
    BARREL_SHIFT (a ^^^ b) s = BARREL_SHIFT a s ^^^ BARREL_SHIFT b s := by
  have hab : a ^^^ b < 2 ^ 32 := Nat.xor_lt_two_pow ha hb
  apply Nat.eq_of_testBit_eq
  intro i
  by_cases hi : i < 32
  · rw [testBit_BARREL_SHIFT _ _ _ hab hs hi, Nat.testBit_xor, Nat.testBit_xor,
      testBit_BARREL_SHIFT _ _ _ ha hs hi, testBit_BARREL_SHIFT _ _ _ hb hs hi]
  · rw [testBit_BARREL_SHIFT_high _ _ _ hab (by omega), Nat.testBit_xor,
      testBit_BARREL_SHIFT_high _ _ _ ha (by omega),
      testBit_BARREL_SHIFT_high _ _ _ hb (by omega)]
    rfl

theorem BARREL_SHIFT_comp (v a b : Nat) (hv : v < 2 ^ 32) (ha : a < 32)
    (hb : b < 32) :
    BARREL_SHIFT (BARREL_SHIFT v a) b = BARREL_SHIFT v ((a + b) % 32) := by
  have hva : BARREL_SHIFT v a < 2 ^ 32 := BARREL_SHIFT_lt v a hv
  have hab : (a + b) % 32 < 32 := Nat.mod_lt _ (by norm_num)
  apply Nat.eq_of_testBit_eq
  intro i
  by_cases hi : i < 32
  · rw [testBit_BARREL_SHIFT _ _ _ hva hb hi,
      testBit_BARREL_SHIFT _ _ _ hv ha (Nat.mod_lt _ (by norm_num)),
      testBit_BARREL_SHIFT _ _ _ hv hab hi]
    congr 1
    have e1 : (i + 32 - b) % 32 + 32 - a = (i + 32 - b) % 32 + (32 - a) := by omega
    have e2 : i + 32 - b = i + (32 - b) := by omega
    rw [e1, e2, Nat.mod_add_mod]
    by_cases hc : a + b < 32
    · have e3 : (a + b) % 32 = a + b := Nat.mod_eq_of_lt hc
      have e4 : i + (32 - b) + (32 - a) = (i + 32 - (a + b)) + 32 := by omega
      rw [e3, e4, Nat.add_mod_right]
    · have e3 : (a + b) % 32 = a + b - 32 := by omega
      have e4 : i + (32 - b) + (32 - a) = i + 32 - (a + b - 32) := by omega
      rw [e3, e4]
  · rw [testBit_BARREL_SHIFT_high _ _ _ hva (by omega),
      testBit_BARREL_SHIFT_high _ _ _ hv (by omega)]

theorem BARREL_SHIFT_zero (v : Nat) (hv : v < 2 ^ 32) : BARREL_SHIFT v 0 = v := by
  unfold BARREL_SHIFT
  have h1 : (32 - 0) &&& 31 = 0 := by decide
  rw [h1, Nat.shiftLeft_zero, Nat.shiftRight_zero, Nat.mod_eq_of_lt hv,
    Nat.or_self]

theorem BARREL_SHIFT_zero_val (s : Nat) : BARREL_SHIFT 0 s = 0 := by
  unfold BARREL_SHIFT
  simp

/-- `_buzhash(data, len, h)`: the loop
`for i in range(len-1, 0, -1): sum ^= BARREL_SHIFT(h[data[0]], i & 0x1f); data += 1`
followed by `return sum ^ h[data[0]]`, expressed structurally over the window
bytes: the byte at distance `d` from the window's end is rotated by `d & 0x1f`
(the final byte is XORed in unrotated).  Defined only for nonempty windows
(the C code reads at least one byte). -/
def buzhashList (h : Nat → Nat) : List Nat → Nat
  | [] => 0
  | [b] => h b
  | b :: c :: rest =>
    BARREL_SHIFT (h b) ((c :: rest).length &&& 31) ^^^ buzhashList h (c :: rest)

/-- `_buzhash_update(sum, remove, add, len, h)`:
`BARREL_SHIFT(sum, 1) ^ BARREL_SHIFT(h[remove], len & 0x1f) ^ h[add]`. -/
def buzhashUpdateH (h : Nat → Nat) (sum remove add len : Nat) : Nat :=
  BARREL_SHIFT sum 1 ^^^ BARREL_SHIFT (h remove) (len &&& 31) ^^^ h add

theorem buzhashList_lt (h : Nat → Nat) (hb : ∀ b, h b < 2 ^ 32) :
    ∀ xs : List Nat, buzhashList h xs < 2 ^ 32
  | [] => by simp [buzhashList]
  | [b] => hb b
  | b :: c :: rest => by
    rw [buzhashList]
    exact Nat.xor_lt_two_pow (BARREL_SHIFT_lt _ _ (hb b))
      (buzhashList_lt h hb (c :: rest))

theorem xor_cancel_left (a b : Nat) : a ^^^ b ^^^ a = b := by
  rw [Nat.xor_comm a b, Nat.xor_assoc, Nat.xor_self, Nat.xor_zero]

theorem xor_cancel_head (a b : Nat) : a ^^^ (a ^^^ b) = b := by
  rw [← Nat.xor_assoc, Nat.xor_self, Nat.zero_xor]

theorem buzhashList_snoc (h : Nat → Nat) (hb : ∀ b, h b < 2 ^ 32) (y : Nat) :
    ∀ xs : List Nat,
      buzhashList h (xs ++ [y]) = BARREL_SHIFT (buzhashList h xs) 1 ^^^ h y
  | [] => by
    simp [buzhashList, BARREL_SHIFT_zero_val]
  | [b] => by
    show buzhashList h [b, y] = _
    rw [buzhashList, buzhashList, buzhashList]
    norm_num
  | b :: c :: rest => by
    have IH := buzhashList_snoc h hb y (c :: rest)
    have hlen : ((c :: rest) ++ [y]).length = (c :: rest).length + 1 := by
      simp
    show buzhashList h (b :: ((c :: rest) ++ [y])) = _
    have hcons : buzhashList h (b :: ((c :: rest) ++ [y])) =
        BARREL_SHIFT (h b) (((c :: rest) ++ [y]).length &&& 31) ^^^
          buzhashList h ((c :: rest) ++ [y]) := by
      cases rest <;> rfl
    rw [hcons, IH, hlen, buzhashList,
      BARREL_SHIFT_xor _ _ _ (BARREL_SHIFT_lt _ _ (hb b))
        (buzhashList_lt h hb (c :: rest)) (by norm_num),
      BARREL_SHIFT_comp _ _ _ (hb b) (by rw [and31_eq_mod]; exact Nat.mod_lt _ (by norm_num))
        (by norm_num)]
    have hsh : ((c :: rest).length + 1) &&& 31 = (((c :: rest).length &&& 31) + 1) % 32 := by
      simp only [and31_eq_mod]
      omega
    rw [hsh, Nat.xor_assoc]

/-- Rolling-hash step identity for `_buzhash` / `_buzhash_update` over any
bounded table `h`: one incremental update of the hash of `b.take W`, removing
`b[0]` and adding `b[W]`, yields the hash of `b.drop 1` (for `b` of length
`W + 1`). -/
theorem buzhash_roll (h : Nat → Nat) (hb : ∀ x, h x < 2 ^ 32) (W : Nat)
    (hW : 1 ≤ W) (b : List Nat) (hlen : b.length = W + 1) :
    buzhashUpdateH h (buzhashList h (b.take W)) (b.getD 0 0) (b.getD W 0) W =
      buzhashList h (b.drop 1) := by
  rcases b with _ | ⟨x, xs⟩
  · simp at hlen
  have hxs : xs.length = W := by simpa using hlen
  have hxs_ne : xs ≠ [] := by
    intro hnil
    rw [hnil] at hxs
    simp at hxs
    omega
  obtain ⟨ys, y, hys⟩ : ∃ ys z, xs = ys ++ [z] := by
    refine ⟨xs.dropLast, xs.getLast hxs_ne, ?_⟩
    exact (List.dropLast_append_getLast hxs_ne).symm
  subst hys
  have hys_len : ys.length = W - 1 := by
    simp at hxs
    omega
  have htake : (x :: (ys ++ [y])).take W = x :: ys := by
    have : W = ys.length + 1 := by omega
    rw [this, List.take_cons (by omega)]
    simp [List.take_left]
  have hget0 : (x :: (ys ++ [y])).getD 0 0 = x := rfl
  have hgetW : (x :: (ys ++ [y])).getD W 0 = y := by
    have : W = ys.length + 1 := by omega
    rw [this]
    simp only [List.getD_eq_getElem?_getD, List.getElem?_cons_succ]
    rw [List.getElem?_concat_length]
    rfl
  have hdrop : (x :: (ys ++ [y])).drop 1 = ys ++ [y] := rfl
  rw [htake, hget0, hgetW, hdrop, buzhashUpdateH]
  rcases ys with _ | ⟨c, t⟩
  · have hW1 : W = 1 := by simp at hys_len; omega
    subst hW1
    show BARREL_SHIFT (buzhashList h [x]) 1 ^^^ BARREL_SHIFT (h x) (1 &&& 31) ^^^ h y =
      buzhashList h [y]
    have h131 : (1 : Nat) &&& 31 = 1 := by decide
    rw [h131, buzhashList, buzhashList, Nat.xor_assoc, xor_cancel_head]
  · rw [buzhashList,
      BARREL_SHIFT_xor _ _ _ (BARREL_SHIFT_lt _ _ (hb x))
        (buzhashList_lt h hb (c :: t)) (by norm_num),
      BARREL_SHIFT_comp _ _ _ (hb x)
        (by rw [and31_eq_mod]; exact Nat.mod_lt _ (by norm_num)) (by norm_num),
      buzhashList_snoc h hb y (c :: t)]
    have hWsh : (((c :: t).length &&& 31) + 1) % 32 = W &&& 31 := by
      simp only [and31_eq_mod]
      rw [Nat.mod_add_mod]
      have h1 : (c :: t).length = W - 1 := hys_len
      rw [h1]
      have h2 : W - 1 + 1 = W := by omega
      rw [h2]
    rw [hWsh]
    congr 1
    exact xor_cancel_left _ _


/-- The hard-coded 256-entry `table_base` of `uint32` constants from the
source. -/
def tableBase : List Nat := [
  0xe7f831ec, 0xf4026465, 0xafb50cae, 0x6d553c7a, 0xd639efe3, 0x19a7b895, 0x9aba5b21, 0x5417d6d4,
  0x35fd2b84, 0xd1f6a159, 0x3f8e323f, 0xb419551c, 0xf444cebf, 0x21dc3b80, 0xde8d1e36, 0x84a32436,
  0xbeb35a9d, 0xa36f24aa, 0xa4e60186, 0x98d18ffe, 0x3f042f9e, 0xdb228bcd, 0x096474b7, 0x5c20c2f7,
  0xf9eec872, 0xe8625275, 0xb9d38f80, 0xd48eb716, 0x22a950b4, 0x3cbaaeaa, 0xc37cddd3, 0x8fea6f6a,
  0x1d55d526, 0x7fd6d3b3, 0xdaa072ee, 0x4345ac40, 0xa077c642, 0x8f2bd45b, 0x28509110, 0x55557613,
  0xffc17311, 0xd961ffef, 0xe532c287, 0xaab95937, 0x46d38365, 0xb065c703, 0xf2d91d0f, 0x92cd4bb0,
  0x4007c712, 0xf35509dd, 0x505b2f69, 0x557ead81, 0x310f4563, 0xbddc5be8, 0x9760f38c, 0x701e0205,
  0x00157244, 0x14912826, 0xdc4ca32b, 0x67b196de, 0x5db292e8, 0x8c1b406b, 0x01f34075, 0xfa2520f7,
  0x73bc37ab, 0x1e18bc30, 0xfe2c6cb3, 0x20c522d0, 0x5639e3db, 0x942bda35, 0x899af9d1, 0xced44035,
  0x98cc025b, 0x255f5771, 0x70fefa24, 0xe928fa4d, 0x2c030405, 0xb9325590, 0x20cb63bd, 0xa166305d,
  0x80e52c0a, 0xa8fafe2f, 0x1ad13f7d, 0xcfaf3685, 0x6c83a199, 0x7d26718a, 0xde5dfcd9, 0x79cf7355,
  0x8979d7fb, 0xebf8c55e, 0xebe408e4, 0xcd2affba, 0xe483be6e, 0xe239d6de, 0x5dc1e9e0, 0x0473931f,
  0x851b097c, 0xac5db249, 0x09c0f9f2, 0xd8d2f134, 0xe6f38e41, 0xb1c71bf1, 0x52b6e4db, 0x07224424,
  0x6cf73e85, 0x4f25d89c, 0x782a7d74, 0x10a68dcd, 0x3a868189, 0xd570d2dc, 0x69630745, 0x9542ed86,
  0x331cd6b2, 0xa84b5b28, 0x07879c9d, 0x38372f64, 0x7185db11, 0x25ba7c83, 0x01061523, 0xe6792f9f,
  0xe5df07d1, 0x4321b47f, 0x7d2469d8, 0x1a3a4f90, 0x48be29a3, 0x669071af, 0x8ec8dd31, 0x0810bfbf,
  0x813a06b4, 0x68538345, 0x65865ddc, 0x43a71b8e, 0x78619a56, 0x5a34451d, 0x5bdaa3ed, 0x71edc7e9,
  0x17ac9a20, 0x78d10bfa, 0x6c1e7f35, 0xd51839d9, 0x240cbc51, 0x33513cc1, 0xd2b4f795, 0xccaa8186,
  0x0babe682, 0xa33cf164, 0x18c643ea, 0xc1ca105f, 0x9959147a, 0x6d3d94de, 0x0b654fbe, 0xed902ca0,
  0x7d835cb5, 0x99ba1509, 0x6445c922, 0x495e76c2, 0xf07194bc, 0xa1631d7e, 0x677076a5, 0x89fffe35,
  0x1a49bcf3, 0x8e6c948a, 0x0144c917, 0x8d93aea1, 0x16f87ddf, 0xc8f25d49, 0x1fb11297, 0x27e750cd,
  0x2f422da1, 0xdee89a77, 0x1534c643, 0x457b7b8b, 0xaf172f7a, 0x6b9b09d6, 0x33573f7f, 0xf14e15c4,
  0x526467d5, 0xaf488241, 0x87c3ee0d, 0x33be490c, 0x95aa6e52, 0x43ec242e, 0xd77de99b, 0xd018334f,
  0x5b78d407, 0x498eb66b, 0xb1279fa8, 0xb38b0ea6, 0x90718376, 0xe325dee2, 0x8e2f2cba, 0xcaa5bdec,
  0x9d652c56, 0xad68f5cb, 0xa77591af, 0x88e37ee8, 0xf8faa221, 0xfcbbbe47, 0x4f407786, 0xaf393889,
  0xf444a1d9, 0x15ae1a2f, 0x40aa7097, 0x6f9486ac, 0x29d232a3, 0xe47609e9, 0xe8b631ff, 0xba8565f4,
  0x11288749, 0x46c9a838, 0xeb1b7cd8, 0xf516bbb1, 0xfb74fda0, 0x010996e6, 0x4c994653, 0x1d889512,
  0x53dcd9a3, 0xdd074697, 0x1e78e17c, 0x637c98bf, 0x930bb219, 0xcf7f75b0, 0xcb9355fb, 0x9e623009,
  0xe466d82c, 0x28f968d3, 0xfeb385d9, 0x238e026c, 0xb8ed0560, 0x0c6a027a, 0x3d6fec4b, 0xbb4b2ec2,
  0xe715031c, 0xeded011d, 0xcdc4d3b9, 0xc456fc96, 0xdd0eea20, 0xb3df8ec9, 0x12351993, 0xd9cbb01c,
  0x603147a2, 0xcf37d17d, 0xf7fcd9dc, 0xd8556fa3, 0x104c8131, 0x13152774, 0xb4715811, 0x6a72c2c9,
  0xc5ae37bb, 0xa76ce12a, 0x8150d8f3, 0x2ec29218, 0xa35f0984, 0x48c0647e, 0x0b5ff98c, 0x71893f7b]

/-- `buzhash_init_table(seed)`: `table[i] = table_base[i] ^ seed`. -/
def buzhash_init_table (seed : Nat) : Nat → Nat :=
  fun i => tableBase.getD i 0 ^^^ seed

set_option maxRecDepth 4000 in
theorem tableBase_lt : ∀ i, tableBase.getD i 0 < 2 ^ 32 := by
  have hall : ∀ v ∈ tableBase, v < 2 ^ 32 := by decide
  intro i
  by_cases hi : i < tableBase.length
  · rw [List.getD_eq_getElem?_getD, List.getElem?_eq_getElem hi]
    exact hall _ (List.getElem_mem hi)
  · rw [List.getD_eq_getElem?_getD, List.getElem?_eq_none (by omega)]
    norm_num

theorem buzhash_init_table_lt (seed : Nat) (hseed : seed < 2 ^ 32) :
    ∀ i, buzhash_init_table seed i < 2 ^ 32 := fun i =>
  Nat.xor_lt_two_pow (tableBase_lt i) hseed

/-- The exported `buzhash(data, seed)`: builds the table with
`seed & 0xffffffff` and hashes the whole input. -/
def buzhash (data : List Nat) (seed : Nat) : Nat :=
  buzhashList (buzhash_init_table (seed &&& 0xffffffff)) data

/-- The exported `buzhash_update(sum, remove, add, len, seed)`: builds the
table with `seed & 0xffffffff` and performs one rolling step. -/
def buzhash_update (sum remove add len seed : Nat) : Nat :=
  buzhashUpdateH (buzhash_init_table (seed &&& 0xffffffff)) sum remove add len

theorem seed_mask_eq_mod (seed : Nat) : seed &&& 0xffffffff = seed % 2 ^ 32 := by
  have h := Nat.and_pow_two_sub_one_eq_mod seed 32
  norm_num at h
  exact h

theorem seeded_table_lt (seed : Nat) :
    ∀ i, buzhash_init_table (seed &&& 0xffffffff) i < 2 ^ 32 := by
  apply buzhash_init_table_lt
  rw [seed_mask_eq_mod]
  exact Nat.mod_lt _ (by norm_num)

/-- C4: for every byte string `b` of length at least `W + 1` (window size
`W ≥ 1`) and every seed, one incremental rolling-hash step from the full hash
of the first window equals the full hash of the window shifted by one byte:
`buzhash_update(buzhash(b[0..W], seed), b[0], b[W], W, seed) = buzhash(b[1..W+1], seed)`. -/
theorem C4_buzhash_update_rolls (b : List Nat) (seed W : Nat) (hW : 1 ≤ W)
    (hlen : W + 1 ≤ b.length) :
    buzhash_update (buzhash (b.take W) seed) (b.getD 0 0) (b.getD W 0) W seed =
      buzhash ((b.drop 1).take W) seed := by
  have hlen' : (b.take (W + 1)).length = W + 1 := by
    rw [List.length_take]
    omega
  have h := buzhash_roll (buzhash_init_table (seed &&& 0xffffffff))
    (seeded_table_lt seed) W hW (b.take (W + 1)) hlen'
  have e1 : (b.take (W + 1)).take W = b.take W := by
    rw [List.take_take]
    congr 1
    omega
  have e2 : (b.take (W + 1)).getD 0 0 = b.getD 0 0 := by
    rw [List.getD_eq_getElem?_getD, List.getD_eq_getElem?_getD,
      List.getElem?_take_of_lt (by omega)]
  have e3 : (b.take (W + 1)).getD W 0 = b.getD W 0 := by
    rw [List.getD_eq_getElem?_getD, List.getD_eq_getElem?_getD,
      List.getElem?_take_of_lt (by omega)]
  have e4 : (b.drop 1).take W = (b.take (W + 1)).drop 1 := by
    rw [List.take_drop]
    have h1 : 1 + W = W + 1 := by omega
    rw [h1]
  rw [e1, e2, e3, ← e4] at h
  exact h

/-- Witness for C4 at scenario S6: `b = [0x11, 0x22, 0x33, 0x44, 0x55]`,
`W = 4`, `seed = 0`. -/
theorem C4_buzhash_update_rolls_witness :
    (1 ≤ 4 ∧ 4 + 1 ≤ ([0x11, 0x22, 0x33, 0x44, 0x55] : List Nat).length) ∧
      buzhash_update (buzhash (([0x11, 0x22, 0x33, 0x44, 0x55] : List Nat).take 4) 0)
          (([0x11, 0x22, 0x33, 0x44, 0x55] : List Nat).getD 0 0)
          (([0x11, 0x22, 0x33, 0x44, 0x55] : List Nat).getD 4 0) 4 0 =
        buzhash ((([0x11, 0x22, 0x33, 0x44, 0x55] : List Nat).drop 1).take 4) 0 :=
  ⟨⟨by decide, by decide⟩,
    C4_buzhash_update_rolls [0x11, 0x22, 0x33, 0x44, 0x55] 0 4 (by decide) (by decide)⟩

/-- C8: the 32-bit left barrel rotation used by the hash returns `v` unchanged
whenever the shift amount is `0` modulo 32 (within the macro's defined shift
range `0 ≤ shift ≤ 32`), for every 32-bit value `v`; in particular at shift 0
no out-of-range shift occurs because the C macro masks `(32 - shift) & 0x1f`. -/
theorem C8_rotate_left_zero (v s : Nat) (hv : v < 2 ^ 32) (hs : s ≤ 32)
    (hmod : s % 32 = 0) : BARREL_SHIFT v s = v := by
  rcases (by omega : s = 0 ∨ s = 32) with rfl | rfl
  · exact BARREL_SHIFT_zero v hv
  · unfold BARREL_SHIFT
    have h1 : (32 - 32) &&& 31 = 0 := by decide
    have h2 : (v <<< 32) % 2 ^ 32 = 0 := by
      rw [Nat.shiftLeft_eq]
      exact Nat.mul_mod_left v (2 ^ 32)
    rw [h1, Nat.shiftRight_zero, h2, Nat.zero_or]

/-- Witness for C8 at `v = 0xdeadbeef`, `s = 0`. -/
theorem C8_rotate_left_zero_witness :
    ((0xdeadbeef : Nat) < 2 ^ 32 ∧ (0 : Nat) ≤ 32 ∧ (0 : Nat) % 32 = 0) ∧
      BARREL_SHIFT 0xdeadbeef 0 = 0xdeadbeef :=
  ⟨⟨by decide, by decide, by decide⟩,
    C8_rotate_left_zero 0xdeadbeef 0 (by decide) (by decide) (by decide)⟩

/-- C10: the exported hash functions depend on the seed only through its low
32 bits: `buzhash(data, s) = buzhash(data, s mod 2^32)` and likewise for
`buzhash_update` (both wrappers mask the seed with `0xffffffff` before
building the table). -/
theorem C10_seed_low_bits (data : List Nat) (sum remove add len seed : Nat) :
    buzhash data seed = buzhash data (seed % 2 ^ 32) ∧
      buzhash_update sum remove add len seed =
        buzhash_update sum remove add len (seed % 2 ^ 32) := by
  have h : (seed % 2 ^ 32) &&& 0xffffffff = seed &&& 0xffffffff := by
    rw [seed_mask_eq_mod, seed_mask_eq_mod, Nat.mod_mod_of_dvd _ dvd_rfl]
  constructor
  · unfold buzhash
    rw [h]
  · unfold buzhash_update
    rw [h]

/-! ## Chunk data model and byte sources -/

/-- The allocation kind of a chunk.  Modelled from the spec: the constants
`CH_DATA` / `CH_ALLOC` / `CH_HOLE` are imported from `borg.constants`, which
is not among the sources; the spec fixes them as a three-valued kind tag. -/
inductive Allocation where
  | CH_DATA
  | CH_ALLOC
  | CH_HOLE
deriving DecidableEq, Repr

/-- A `Chunk(data, size=..., allocation=...)` record: `meta` is the
`allocation` and `size` pair, `data` is the payload (present only for
`CH_DATA`). -/
structure ChunkRec where
  allocation : Allocation
  size : Nat
  data : Option (List Nat)
deriving DecidableEq, Repr

/-- Modelled from the spec: `zeros` (from `borg.constants`, not among the
sources) is an all-zero bytes constant with `len(zeros) ≥ max_size ≥
len(data)` at every use site (the constructors assert
`block_size ≤ len(zeros)` and `max_size ≤ len(zeros)`), so
`zeros.startswith(data)` holds iff every byte of `data` is zero (spec 4.3:
the semantic is byte-wise equality with zero). -/
def zerosStartswith (data : List Nat) : Bool := data.all (fun b => b == 0)

/-- A seekable byte source: `content` is the full underlying byte string and
`pos` the current seek position.  `read n` returns the next
`min n (remaining)` bytes (short only at end of data, as for a regular file);
seeks are unclamped, as with `os.lseek` / `file.seek`. -/
structure FFile where
  content : List Nat
  pos : Nat
deriving DecidableEq, Repr

def FFile.read (f : FFile) (n : Nat) : List Nat × FFile :=
  let d := (f.content.drop f.pos).take n
  (d, { f with pos := f.pos + d.length })

def FFile.seekSet (f : FFile) (o : Nat) : FFile := { f with pos := o }

def FFile.seekCur (f : FFile) (amt : Nat) : Nat × FFile :=
  (f.pos + amt, { f with pos := f.pos + amt })

/-! ## The failing chunker `ChunkerFailing` -/

/-- Result of pulling once on a `ChunkerFailing.chunkify` generator. -/
inductive FailPull where
  | chunk (c : ChunkRec)
  | eio            -- `OSError(errno.EIO, "simulated I/O error")`
  | valueError     -- `ValueError("unsupported map character")`
  | finished       -- generator returns (`StopIteration`)
deriving DecidableEq, Repr

/-- Generator state for `ChunkerFailing`: `count` is the instance attribute
`self.count` (persists across `chunkify` calls); `afterShort` records whether
the previous emission came from a short read, in which case the resumed
generator body immediately runs `if got < wanted: return`. -/
structure FailingState where
  count : Nat
  afterShort : Bool
deriving DecidableEq, Repr

/-- One pull on `ChunkerFailing.chunkify`: read up to `block_size` bytes;
on a nonempty read consult `map[count if count < len(map) else -1]`:
`E` increments `count` and raises `EIO`, `R` increments `count` and yields a
`CH_DATA` chunk of the bytes read; an empty or short read terminates. -/
def failPull (block_size : Nat) (map : List Char) (st : FailingState) (f : FFile) :
    FailPull × FailingState × FFile :=
  if st.afterShort then (.finished, st, f)
  else
    let r := f.read block_size
    let data := r.1
    let f' := r.2
    let got := data.length
    if got > 0 then
      let idx := if st.count < map.length then st.count else map.length - 1
      let behaviour := map.getD idx 'R'
      if behaviour = 'E' then (.eio, { st with count := st.count + 1 }, f')
      else if behaviour = 'R' then
        (.chunk ⟨.CH_DATA, got, some data⟩,
          ⟨st.count + 1, got < block_size⟩, f')
      else (.valueError, st, f')
    else (.finished, st, f')

/-- Pull repeatedly on one `chunkify` generator, collecting the yielded
chunks until the generator terminates or raises. -/
def failingRun (block_size : Nat) (map : List Char) :
    Nat → FailingState → FFile → Option (List ChunkRec × FailPull)
  | 0, _, _ => none
  | fuel + 1, st, f =>
    match failPull block_size map st f with
    | (.chunk c, st', f') =>
      match failingRun block_size map fuel st' f' with
      | none => none
      | some (cs, r) => some (c :: cs, r)
    | (r, _, _) => some ([], r)

/-- Scenario S5 of the spec: `ChunkerFailing(block_size=4, map="RERR")` on an
8-byte non-zero source. -/
def c6Map : List Char := ['R', 'E', 'R', 'R']

def c6Src : FFile := ⟨[1, 1, 1, 1, 1, 1, 1, 1], 0⟩

def c6Pull1 : FailPull × FailingState × FFile := failPull 4 c6Map ⟨0, false⟩ c6Src

def c6Pull2 : FailPull × FailingState × FFile := failPull 4 c6Map c6Pull1.2.1 c6Pull1.2.2

/-- The third pull happens on a fresh generator obtained by calling
`chunkify` again on the same source (the `count` attribute persists, the
source's position is wherever the failing read left it). -/
def c6Pull3 : FailPull × FailingState × FFile :=
  failPull 4 c6Map ⟨c6Pull2.2.1.count, false⟩ c6Pull2.2.2

/-- C6 counterexample: on the concrete S5 scenario the third pull does not
yield a `DATA` chunk of size 4 — the failing second pull already consumed the
remaining 4 bytes of the source before raising, so the third pull hits EOF
and terminates. -/
theorem C6_counterexample :
    ¬ ∃ c : ChunkRec, c6Pull3.1 = FailPull.chunk c ∧ c.size = 4 := by
  intro hex
  obtain ⟨c, hc, _⟩ := hex
  have hfin : c6Pull3.1 = FailPull.finished := by decide
  rw [hfin] at hc
  exact FailPull.noConfusion hc

/-- C6 amended: `ChunkerFailing(block_size=4, map="RERR")` on an 8-byte
non-zero source: the first pull yields a `DATA` chunk of size 4; the second
pull raises `EIO`, its read having consumed the remaining 4 bytes of the
source; the third pull (after resuming via `chunkify`) terminates the
sequence. -/
theorem C6_failing_chunker_sequence :
    c6Pull1.1 = FailPull.chunk ⟨Allocation.CH_DATA, 4, some [1, 1, 1, 1]⟩ ∧
      c6Pull2.1 = FailPull.eio ∧
      c6Pull2.2.2.pos = 8 ∧
      c6Pull3.1 = FailPull.finished := by
  refine ⟨by decide, by decide, by decide, by decide⟩

/-! ## Reconstruction of the input from a chunk sequence -/

/-- The logical bytes a chunk stands for: the payload for `DATA` chunks,
`size` zero bytes for `ALLOC` / `HOLE` chunks. -/
def reconstructChunk (c : ChunkRec) : List Nat :=
  match c.data with
  | some d => d
  | none => List.replicate c.size 0

def reconstruct (cs : List ChunkRec) : List Nat :=
  (cs.map reconstructChunk).flatten

def totalSize (cs : List ChunkRec) : Nat :=
  (cs.map ChunkRec.size).sum

/-- Per-chunk well-formedness: positive size, `size` equals the length of the
logical bytes, `ALLOC` and `HOLE` chunks carry no payload, an `ALLOC` chunk
stands for all-zero bytes, and a `DATA` chunk carries exactly its logical
bytes, which are not all zero. -/
def chunkOK (c : ChunkRec) : Prop :=
  0 < c.size ∧ c.size = (reconstructChunk c).length ∧
    (c.allocation = Allocation.CH_ALLOC →
      c.data = none ∧ zerosStartswith (reconstructChunk c) = true) ∧
    (c.allocation = Allocation.CH_DATA →
      c.data = some (reconstructChunk c) ∧
        zerosStartswith (reconstructChunk c) = false) ∧
    (c.allocation = Allocation.CH_HOLE → c.data = none)

theorem totalSize_eq_length_reconstruct (cs : List ChunkRec)
    (h : ∀ c ∈ cs, c.size = (reconstructChunk c).length) :
    totalSize cs = (reconstruct cs).length := by
  induction cs with
  | nil => rfl
  | cons c cs ih =>
    have hc := h c (by simp)
    have hrest : ∀ x ∈ cs, x.size = (reconstructChunk x).length :=
      fun x hx => h x (by simp [hx])
    simp only [totalSize, reconstruct, List.map_cons, List.flatten_cons,
      List.sum_cons, List.length_append]
    rw [hc]
    congr 1
    exact ih hrest

/-! ## The fixed-size chunker `ChunkerFixed` -/

/-- One `(start, size, is_data)` triple of a file map, as produced by
`sparsemap` or synthesized by `ChunkerFixed.chunkify`. -/
structure FixedRange where
  start : Nat
  size : Nat
  is_data : Bool
deriving DecidableEq, Repr

/-- The walk of `ChunkerFixed.chunkify` over the file map.  The loop state is
the remaining ranges, the in-progress range (`range_size`, `is_data`) if any,
the logical `offset` and the byte source.  One fuel unit is one iteration of
the `for`/`while` structure; `none` means the fuel ran out (the theorems show
the canonical fuel never does). -/
def fixedGo (block_size : Nat) :
    Nat → List FixedRange → Option (Nat × Bool) → Nat → FFile →
      Option (List ChunkRec)
  | 0, _, _, _, _ => none
  | fuel + 1, ranges, none, offset, f =>
    match ranges with
    | [] => some []
    | r :: rest =>
      if r.start ≠ offset then
        fixedGo block_size fuel rest (some (r.size, r.is_data)) r.start
          (f.seekSet r.start)
      else
        fixedGo block_size fuel rest (some (r.size, r.is_data)) offset f
  | fuel + 1, ranges, some (range_size, is_data), offset, f =>
    if range_size = 0 then fixedGo block_size fuel ranges none offset f
    else
      let wanted := min range_size block_size
      if is_data then
        let rr := f.read wanted
        let data := rr.1
        let f' := rr.2
        let got := data.length
        let emit : List ChunkRec :=
          if 0 < got then
            if zerosStartswith data then [⟨.CH_ALLOC, got, none⟩]
            else [⟨.CH_DATA, got, some data⟩]
          else []
        if got < wanted then some emit
        else
          match fixedGo block_size fuel ranges (some (range_size - got, is_data))
              (offset + got) f' with
          | none => none
          | some cs => some (emit ++ cs)
      else
        let sr := f.seekCur wanted
        let pos := sr.1
        let f' := sr.2
        let got := pos - offset
        let emit : List ChunkRec := if 0 < got then [⟨.CH_HOLE, got, none⟩] else []
        if got < wanted then some emit
        else
          match fixedGo block_size fuel ranges (some (range_size - got, is_data))
              (offset + got) f' with
          | none => none
          | some cs => some (emit ++ cs)

/-- The "fake fmap" synthesized by `ChunkerFixed.chunkify` when sparse
processing is off or failed: the whole file as data range(s), with a separate
header range when `header_size > 0`. -/
def fixedFakeMap (header_size : Nat) : List FixedRange :=
  if 0 < header_size then
    [⟨0, header_size, true⟩, ⟨header_size, 2 ^ 62, true⟩]
  else [⟨0, 2 ^ 62, true⟩]

def fixedFuel (S : List Nat) (fmap : List FixedRange) : Nat :=
  S.length + 2 * fmap.length + 5

/-- `ChunkerFixed(block_size, header_size, sparse=False).chunkify(fd)` on a
byte source containing `S`, positioned at 0. -/
def chunkerFixedRun (block_size header_size : Nat) (S : List Nat) :
    Option (List ChunkRec) :=
  fixedGo block_size (fixedFuel S (fixedFakeMap header_size))
    (fixedFakeMap header_size) none 0 ⟨S, 0⟩

/-- `ChunkerFixed(block_size).chunkify(fd, fmap=fmap)` on a byte source
containing `S`, positioned at 0, with an explicitly supplied file map. -/
def chunkerFixedRunMap (block_size : Nat) (fmap : List FixedRange)
    (S : List Nat) : Option (List ChunkRec) :=
  fixedGo block_size (fixedFuel S fmap) fmap none 0 ⟨S, 0⟩

theorem allZero_eq_replicate : ∀ l : List Nat, zerosStartswith l = true →
    l = List.replicate l.length 0
  | [], _ => rfl
  | a :: l, h => by
    simp only [zerosStartswith, List.all_cons, Bool.and_eq_true, beq_iff_eq] at h
    obtain ⟨ha, hl⟩ := h
    simp only [List.length_cons, List.replicate_succ]
    rw [ha]
    congr 1
    exact allZero_eq_replicate l hl

theorem zerosStartswith_replicate (n : Nat) :
    zerosStartswith (List.replicate n 0) = true := by
  simp only [zerosStartswith, List.all_eq_true, beq_iff_eq]
  intro b hb
  exact List.eq_of_mem_replicate hb

theorem zerosStartswith_subset {l m : List Nat} (hsub : l ⊆ m)
    (h : zerosStartswith m = true) : zerosStartswith l = true := by
  simp only [zerosStartswith, List.all_eq_true] at h ⊢
  exact fun b hb => h b (hsub hb)

theorem drop_take_comm (X : List α) (g rs : Nat) (hg : g ≤ rs) :
    (X.take rs).drop g = (X.drop g).take (rs - g) := by
  rw [List.take_drop]
  have h1 : g + (rs - g) = rs := by omega
  rw [h1]

/-- Validity of a file map from logical offset `o` over file contents `S`:
ranges are contiguous (each starts where the previous one ended) and hole
ranges lie entirely within the file and cover only zero bytes of `S`. -/
def RangesOK (S : List Nat) : Nat → List FixedRange → Prop
  | _, [] => True
  | o, r :: rest =>
    r.start = o ∧
      (r.is_data = false → r.start + r.size ≤ S.length ∧
        zerosStartswith ((S.drop r.start).take r.size) = true) ∧
      RangesOK S (r.start + r.size) rest

/-- The logical end offset of a file map started at `o`. -/
def rangesEnd : Nat → List FixedRange → Nat
  | o, [] => o
  | _, r :: rest => rangesEnd (r.start + r.size) rest

/-- Invariant-carrying specification of the `ChunkerFixed.chunkify` walk:
from a valid state the walk succeeds, the emitted chunks reconstruct exactly
the rest of the file, and every chunk is well-formed. -/
theorem fixedGo_spec (S : List Nat) (block_size : Nat) (hb : 1 ≤ block_size) :
    ∀ fuel ranges cur offset,
      offset ≤ S.length →
      (match cur with
       | none =>
         RangesOK S offset ranges ∧ S.length ≤ rangesEnd offset ranges ∧
           S.length - offset + 2 * ranges.length + 2 ≤ fuel
       | some (rs, d) =>
         (d = false → offset + rs ≤ S.length ∧
           zerosStartswith ((S.drop offset).take rs) = true) ∧
           RangesOK S (offset + rs) ranges ∧
           S.length ≤ rangesEnd (offset + rs) ranges ∧
           S.length - offset + 2 * ranges.length + 3 ≤ fuel) →
      ∃ cs, fixedGo block_size fuel ranges cur offset ⟨S, offset⟩ = some cs ∧
        reconstruct cs = S.drop offset ∧ ∀ c ∈ cs, chunkOK c := by
  intro fuel
  induction fuel with
  | zero =>
    intro ranges cur offset hoff hinv
    rcases cur with _ | ⟨rs, d⟩
    · exact absurd hinv.2.2 (by omega)
    · exact absurd hinv.2.2.2 (by omega)
  | succ fuel ih =>
    intro ranges cur offset hoff hinv
    rcases cur with _ | ⟨rs, d⟩
    · -- `for` loop head: pop the next range (or finish)
      obtain ⟨hrok, hcov, hfuel⟩ := hinv
      rcases ranges with _ | ⟨r, rest⟩
      · refine ⟨[], rfl, ?_, by simp⟩
        have hLo : S.length ≤ offset := by
          simpa [rangesEnd] using hcov
        rw [List.drop_of_length_le hLo]
        rfl
      · obtain ⟨hstart, hhole, hrok'⟩ := hrok
        have hcov' : S.length ≤ rangesEnd (offset + r.size) rest := by
          rw [← hstart]
          simpa [rangesEnd] using hcov
        have hstep := ih rest (some (r.size, r.is_data)) offset hoff
          ⟨by rw [← hstart]; exact hhole, by rw [← hstart]; exact hrok',
            hcov', by simp at hfuel ⊢; omega⟩
        obtain ⟨cs, hrun, hrec, hok⟩ := hstep
        refine ⟨cs, ?_, hrec, hok⟩
        show fixedGo block_size (fuel + 1) (r :: rest) none offset ⟨S, offset⟩ =
          some cs
        rw [fixedGo]
        rw [if_neg (by simp [hstart])]
        exact hrun
    · -- `while range_size` body
      obtain ⟨hdinv, hrok, hcov, hfuel⟩ := hinv
      by_cases hrs : rs = 0
      · subst hrs
        have hstep := ih ranges none offset hoff
          ⟨by simpa using hrok, by simpa using hcov, by omega⟩
        obtain ⟨cs, hrun, hrec, hok⟩ := hstep
        refine ⟨cs, ?_, hrec, hok⟩
        show fixedGo block_size (fuel + 1) ranges (some (0, d)) offset
          ⟨S, offset⟩ = some cs
        rw [fixedGo, if_pos rfl]
        exact hrun
      · have hw1 : 1 ≤ min rs block_size := by omega
        rcases d with _ | _
        · -- hole range
          obtain ⟨hin, hzero⟩ := hdinv rfl
          set wanted := min rs block_size with hwdef
          have hwrs : wanted ≤ rs := Nat.min_le_left _ _
          have hsliceLen : ((S.drop offset).take wanted).length = wanted := by
            rw [List.length_take, List.length_drop]
            omega
          have hsliceZero : zerosStartswith ((S.drop offset).take wanted) = true := by
            have h1 : (S.drop offset).take wanted =
                ((S.drop offset).take rs).take wanted := by
              rw [List.take_take]
              congr 1
              omega
            rw [h1]
            exact zerosStartswith_subset (List.take_subset _ _) hzero
          have hstep := ih ranges (some (rs - wanted, false)) (offset + wanted)
            (by omega)
            ⟨?_, ?_, ?_, by omega⟩
          rotate_left
          · intro _
            constructor
            · omega
            · have h1 : (S.drop (offset + wanted)).take (rs - wanted) =
                  ((S.drop offset).take rs).drop wanted := by
                rw [drop_take_comm _ _ _ hwrs, List.drop_drop]
              rw [h1]
              exact zerosStartswith_subset (List.drop_subset _ _) hzero
          · have h1 : offset + wanted + (rs - wanted) = offset + rs := by omega
            rw [h1]
            exact hrok
          · have h1 : offset + wanted + (rs - wanted) = offset + rs := by omega
            rw [h1]
            exact hcov
          obtain ⟨cs, hrun, hrec, hok⟩ := hstep
          refine ⟨⟨.CH_HOLE, wanted, none⟩ :: cs, ?_, ?_, ?_⟩
          · show fixedGo block_size (fuel + 1) ranges (some (rs, false)) offset
              ⟨S, offset⟩ = _
            rw [fixedGo, if_neg hrs]
            simp only [FFile.seekCur, ← hwdef]
            rw [if_neg (by simp)]
            have hgot : offset + wanted - offset = wanted := by omega
            rw [hgot]
            rw [if_neg (by omega), if_pos (by omega)]
            rw [hrun]
            rfl
          · simp only [reconstruct, List.map_cons, List.flatten_cons]
            have h1 : reconstructChunk ⟨.CH_HOLE, wanted, none⟩ =
                (S.drop offset).take wanted := by
              show List.replicate wanted 0 = _
              have h2 := allZero_eq_replicate _ hsliceZero
              rw [hsliceLen] at h2
              exact h2.symm
            rw [h1]
            show _ ++ reconstruct cs = _
            rw [hrec, ← List.drop_drop]
            exact List.take_append_drop _ _
          · intro c hc
            rcases List.mem_cons.mp hc with hc | hc
            · subst hc
              refine ⟨by show 0 < wanted; omega, by simp [reconstructChunk], ?_, ?_, ?_⟩
              · intro h
                exact absurd h (by simp)
              · intro h
                exact absurd h (by simp)
              · intro _
                rfl
            · exact hok c hc
        · -- data range
          set wanted := min rs block_size with hwdef
          have hwrs : wanted ≤ rs := Nat.min_le_left _ _
          set data := (S.drop offset).take wanted with hddef
          have hgot : data.length = min wanted (S.length - offset) := by
            rw [hddef, List.length_take, List.length_drop]
          by_cases hshort : data.length < wanted
          · -- EOF inside this range: emit what was obtained and stop
            have havail : S.length - offset < wanted := by omega
            have hdata_all : data = S.drop offset := by
              rw [hddef]
              exact List.take_of_length_le (by rw [List.length_drop]; omega)
            have hrun1 : fixedGo block_size (fuel + 1) ranges (some (rs, true))
                offset ⟨S, offset⟩ = some (if 0 < data.length then
                  (if zerosStartswith data then [⟨.CH_ALLOC, data.length, none⟩]
                   else [⟨.CH_DATA, data.length, some data⟩]) else []) := by
              rw [fixedGo, if_neg hrs]
              simp only [FFile.read, ← hwdef, ← hddef]
              rw [if_pos (by simp)]
              rw [if_pos hshort]
            by_cases hlen0 : 0 < data.length
            · by_cases hz : zerosStartswith data
              · refine ⟨[⟨.CH_ALLOC, data.length, none⟩], ?_, ?_, ?_⟩
                · rw [hrun1, if_pos hlen0, if_pos hz]
                · simp only [reconstruct, List.map_cons, List.flatten_nil,
                    List.map_nil, List.flatten_cons, List.append_nil]
                  show List.replicate data.length 0 = _
                  rw [← allZero_eq_replicate data hz, hdata_all]
                · intro c hc
                  rcases List.mem_cons.mp hc with hc | hc
                  · subst hc
                    refine ⟨by show 0 < data.length; omega, by simp [reconstructChunk], ?_, ?_, ?_⟩
                    · intro _
                      exact ⟨rfl, zerosStartswith_replicate _⟩
                    · intro h
                      exact absurd h (by simp)
                    · intro h
                      exact absurd h (by simp)
                  · simp at hc
              · refine ⟨[⟨.CH_DATA, data.length, some data⟩], ?_, ?_, ?_⟩
                · rw [hrun1, if_pos hlen0, if_neg hz]
                · simp only [reconstruct, List.map_cons, List.flatten_nil,
                    List.map_nil, List.flatten_cons, List.append_nil]
                  show data = _
                  exact hdata_all
                · intro c hc
                  rcases List.mem_cons.mp hc with hc | hc
                  · subst hc
                    refine ⟨by show 0 < data.length; omega, by simp [reconstructChunk], ?_, ?_, ?_⟩
                    · intro h
                      exact absurd h (by simp)
                    · intro _
                      exact ⟨rfl, by simpa using hz⟩
                    · intro h
                      exact absurd h (by simp)
                  · simp at hc
            · have hdrop : S.drop offset = [] := by
                rw [← hdata_all]
                exact List.eq_nil_of_length_eq_zero (by omega)
              refine ⟨[], ?_, by rw [hdrop]; rfl, by simp⟩
              rw [hrun1, if_neg hlen0]
          · -- full block read: emit and continue
            have hfull : data.length = wanted := by omega
            have havail : wanted ≤ S.length - offset := by omega
            have hstep := ih ranges (some (rs - wanted, true)) (offset + wanted)
              (by omega)
              ⟨by intro h; exact absurd h (by simp), ?_, ?_, by omega⟩
            rotate_left
            · have h1 : offset + wanted + (rs - wanted) = offset + rs := by omega
              rw [h1]
              exact hrok
            · have h1 : offset + wanted + (rs - wanted) = offset + rs := by omega
              rw [h1]
              exact hcov
            obtain ⟨cs, hrun, hrec, hok⟩ := hstep
            have hemit : ∃ e : ChunkRec,
                (if zerosStartswith data then
                  ([⟨.CH_ALLOC, data.length, none⟩] : List ChunkRec)
                 else [⟨.CH_DATA, data.length, some data⟩]) = [e] ∧
                reconstructChunk e = data ∧ chunkOK e := by
              by_cases hz : zerosStartswith data
              · refine ⟨⟨.CH_ALLOC, data.length, none⟩, if_pos hz, ?_, ?_⟩
                · show List.replicate data.length 0 = data
                  exact (allZero_eq_replicate data hz).symm
                · refine ⟨by show 0 < data.length; omega, by simp [reconstructChunk], ?_, ?_, ?_⟩
                  · intro _
                    exact ⟨rfl, zerosStartswith_replicate _⟩
                  · intro h
                    exact absurd h (by simp)
                  · intro h
                    exact absurd h (by simp)
              · refine ⟨⟨.CH_DATA, data.length, some data⟩, if_neg hz, rfl, ?_⟩
                refine ⟨by show 0 < data.length; omega, by simp [reconstructChunk], ?_, ?_, ?_⟩
                · intro h
                  exact absurd h (by simp)
                · intro _
                  exact ⟨rfl, by simpa using hz⟩
                · intro h
                  exact absurd h (by simp)
            obtain ⟨e, hif, herec, heok⟩ := hemit
            refine ⟨e :: cs, ?_, ?_, ?_⟩
            · show fixedGo block_size (fuel + 1) ranges (some (rs, true)) offset
                ⟨S, offset⟩ = _
              rw [fixedGo, if_neg hrs]
              simp only [FFile.read, ← hwdef, ← hddef]
              rw [if_pos (by simp)]
              rw [if_neg hshort]
              rw [if_pos (by omega), hif]
              rw [hfull]
              rw [hrun]
              rfl
            · simp only [reconstruct, List.map_cons, List.flatten_cons]
              show reconstructChunk e ++ reconstruct cs = _
              rw [herec, hrec, hddef, ← List.drop_drop]
              exact List.take_append_drop _ _
            · intro c hc
              rcases List.mem_cons.mp hc with hc | hc
              · subst hc
                exact heok
              · exact hok c hc

theorem chunkerFixedRunMap_spec (block_size : Nat) (hb : 1 ≤ block_size)
    (fmap : List FixedRange) (S : List Nat) (hok : RangesOK S 0 fmap)
    (hcov : S.length ≤ rangesEnd 0 fmap) :
    ∃ cs, chunkerFixedRunMap block_size fmap S = some cs ∧
      reconstruct cs = S ∧ totalSize cs = S.length ∧ ∀ c ∈ cs, chunkOK c := by
  have h := fixedGo_spec S block_size hb (fixedFuel S fmap) fmap none 0
    (Nat.zero_le _) ⟨hok, hcov, by simp [fixedFuel]⟩
  obtain ⟨cs, hrun, hrec, hokc⟩ := h
  refine ⟨cs, hrun, by simpa using hrec, ?_, hokc⟩
  rw [totalSize_eq_length_reconstruct cs (fun c hc => (hokc c hc).2.1), hrec]
  simp

theorem fixedFakeMap_ok (S : List Nat) (header_size : Nat) :
    RangesOK S 0 (fixedFakeMap header_size) := by
  unfold fixedFakeMap
  by_cases hh : 0 < header_size
  · rw [if_pos hh]
    refine ⟨rfl, by intro h; exact absurd h (by simp), ?_, ?_, trivial⟩
    · simp
    · intro h
      exact absurd h (by simp)
  · rw [if_neg hh]
    exact ⟨rfl, by intro h; exact absurd h (by simp), trivial⟩

theorem fixedFakeMap_covers (S : List Nat) (header_size : Nat)
    (hS : S.length ≤ 2 ^ 62) :
    S.length ≤ rangesEnd 0 (fixedFakeMap header_size) := by
  unfold fixedFakeMap
  by_cases hh : 0 < header_size
  · rw [if_pos hh]
    show S.length ≤ rangesEnd _ _
    simp only [rangesEnd]
    omega
  · rw [if_neg hh]
    simp only [rangesEnd]
    omega

theorem chunkerFixedRun_spec (block_size header_size : Nat) (hb : 1 ≤ block_size)
    (S : List Nat) (hS : S.length ≤ 2 ^ 62) :
    ∃ cs, chunkerFixedRun block_size header_size S = some cs ∧
      reconstruct cs = S ∧ totalSize cs = S.length ∧ ∀ c ∈ cs, chunkOK c := by
  have h := fixedGo_spec S block_size hb (fixedFuel S (fixedFakeMap header_size))
    (fixedFakeMap header_size) none 0 (Nat.zero_le _)
    ⟨fixedFakeMap_ok S header_size, fixedFakeMap_covers S header_size hS,
      by simp [fixedFuel]⟩
  obtain ⟨cs, hrun, hrec, hokc⟩ := h
  refine ⟨cs, hrun, by simpa using hrec, ?_, hokc⟩
  rw [totalSize_eq_length_reconstruct cs (fun c hc => (hokc c hc).2.1), hrec]
  simp

/-! ## The sparse-range enumerator `sparsemap` -/

/-- A sparse file as seen through `SEEK_HOLE` / `SEEK_DATA`: `len` is the
file length, `isHole o` whether offset `o` (for `o < len`) lies inside a
hole, and `seekSupported` whether the filesystem supports hole seeking. -/
structure SparseFS where
  len : Nat
  isHole : Nat → Bool
  seekSupported : Bool

inductive SeekErr where
  | enxio       -- `errno == ENXIO`: no such region at or past the offset
  | eother      -- any other `OSError` (e.g. seek mode unsupported)
deriving DecidableEq, Repr

/-- `lseek(fd, offset, SEEK_HOLE)`: the smallest `h ≥ offset` that is in a
hole or is the end of file (POSIX treats end of file as a virtual hole);
`ENXIO` when `offset` is at or beyond the end of the file.  A failed seek
leaves the file position unchanged; a successful one moves it to the result. -/
def seekHole (fs : SparseFS) (off : Nat) : Except SeekErr Nat :=
  if fs.seekSupported = false then .error .eother
  else if fs.len ≤ off then .error .enxio
  else
    match (List.range (fs.len - off)).find? (fun k => fs.isHole (off + k)) with
    | some k => .ok (off + k)
    | none => .ok fs.len

/-- `lseek(fd, offset, SEEK_DATA)`: the smallest data offset `≥ offset`;
`ENXIO` when the offset is at or beyond the end of file or only a hole
remains up to the end of file. -/
def seekData (fs : SparseFS) (off : Nat) : Except SeekErr Nat :=
  if fs.seekSupported = false then .error .eother
  else if fs.len ≤ off then .error .enxio
  else
    match (List.range (fs.len - off)).find? (fun k => !fs.isHole (off + k)) with
    | some k => .ok (off + k)
    | none => .error .enxio

inductive SMOutcome where
  | ok          -- loop ended via the `ENXIO` break
  | oserror     -- a non-`ENXIO` `OSError` was re-raised
deriving DecidableEq, Repr

/-- `dseek(new, SEEK_SET)` on the position-only view of the source. -/
def seekSetPos (_pos new : Nat) : Nat := new

/-- The `while True` loop of `sparsemap`, before the `finally` clause:
alternately seek to the next hole / next data offset, yielding nonempty
`(start, length, is_data)` ranges.  Each yielded range is paired with the
file position at the moment of the yield (successful seeks move the
position, failed ones leave it).  Returns the yields, the outcome, and the
file position when the loop stopped. -/
def sparsemapGo (fs : SparseFS) :
    Nat → Nat → Bool → Nat →
      Option (List ((Nat × Nat × Bool) × Nat) × SMOutcome × Nat)
  | 0, _, _, _ => none
  | fuel + 1, start, whenceHole, pos =>
    match (if whenceHole then seekHole fs start else seekData fs start) with
    | .error .enxio =>
      if whenceHole = false ∧ start < fs.len then
        some ([((start, fs.len - start, whenceHole), pos)], .ok, pos)
      else some ([], .ok, pos)
    | .error .eother => some ([], .oserror, pos)
    | .ok e =>
      match sparsemapGo fs fuel e (!whenceHole) e with
      | none => none
      | some (rs, out, fpos) =>
        if start < e then some (((start, e - start, whenceHole), e) :: rs, out, fpos)
        else some (rs, out, fpos)

/-- `sparsemap(fd)` run to completion from seek position `curr`:
`dpos_curr_end` restores the position to `curr` before the loop; the
`finally` clause seeks back to `curr` on every termination path (normal
`ENXIO` break or re-raised `OSError`).  Returns the yielded ranges with
their yield-time positions, the outcome, and the final position. -/
def sparsemapRun (fs : SparseFS) (curr : Nat) :
    Option (List ((Nat × Nat × Bool) × Nat) × SMOutcome × Nat) :=
  match sparsemapGo fs (2 * fs.len + 4) curr true curr with
  | none => none
  | some (rs, out, pos) => some (rs, out, seekSetPos pos curr)

/-- Abandoning the generator after consuming `k` ranges: the consumer drops
the generator at the `k`-th yield (or after exhaustion, whichever is first);
closing the generator runs the `finally` clause from whatever position the
generator was suspended at. -/
def sparsemapAbortPos (fs : SparseFS) (curr k : Nat) : Option Nat :=
  match sparsemapGo fs (2 * fs.len + 4) curr true curr with
  | none => none
  | some (rs, _, pos) =>
    some (seekSetPos ((rs.map Prod.snd).getD k pos) curr)

/-- C7: the sparse-range enumerator restores the byte source seek position
to the position it had when enumeration started, on every termination path:
normal exhaustion (outcome `ok`), error (outcome `oserror`), and early
abandonment of the generator after any number `k` of consumed ranges. -/
theorem C7_sparsemap_restores_position (fs : SparseFS) (curr : Nat)
    (res : List ((Nat × Nat × Bool) × Nat) × SMOutcome × Nat) (k : Nat)
    (h : sparsemapRun fs curr = some res) :
    res.2.2 = curr ∧ sparsemapAbortPos fs curr k = some curr := by
  unfold sparsemapRun at h
  unfold sparsemapAbortPos
  match hgo : sparsemapGo fs (2 * fs.len + 4) curr true curr with
  | none =>
    rw [hgo] at h
    exact absurd h (by simp)
  | some (rs, out, pos) =>
    rw [hgo] at h
    simp only [Option.some.injEq] at h
    subst h
    exact ⟨rfl, rfl⟩

/-- Witness for C7 on a 6-byte file with a hole at `[2, 4)`, enumerated from
position 1 and abandoned after 0 consumed ranges. -/
theorem C7_sparsemap_restores_position_witness :
    sparsemapRun ⟨6, fun o => decide (2 ≤ o ∧ o < 4), true⟩ 1 =
      some ([((1, 1, true), 2), ((2, 2, false), 4), ((4, 2, true), 6)],
        SMOutcome.ok, 1) ∧
      (([((1, 1, true), 2), ((2, 2, false), 4), ((4, 2, true), 6)],
          SMOutcome.ok, 1) :
        List ((Nat × Nat × Bool) × Nat) × SMOutcome × Nat).2.2 = 1 ∧
      sparsemapAbortPos ⟨6, fun o => decide (2 ≤ o ∧ o < 4), true⟩ 1 0 = some 1 :=
  ⟨by decide, C7_sparsemap_restores_position _ 1 _ 0 (by decide)⟩

/-! ## The content-defined chunker `Chunker` -/

/-- Constructor arguments of `Chunker.__cinit__`. -/
structure ChunkerCfg where
  seed : Nat
  chunk_min_exp : Nat
  chunk_max_exp : Nat
  hash_mask_bits : Nat
  hash_window_size : Nat

def ChunkerCfg.min_size (c : ChunkerCfg) : Nat := 2 ^ c.chunk_min_exp

def ChunkerCfg.buf_size (c : ChunkerCfg) : Nat := 2 ^ c.chunk_max_exp

def ChunkerCfg.chunk_mask (c : ChunkerCfg) : Nat := 2 ^ c.hash_mask_bits - 1

def ChunkerCfg.window_size (c : ChunkerCfg) : Nat := c.hash_window_size

def ChunkerCfg.table (c : ChunkerCfg) : Nat → Nat :=
  buzhash_init_table (c.seed &&& 0xffffffff)

/-- The constructor assertion
`hash_window_size + min_size + 1 <= max_size` ("too small max_size"),
plus nondegeneracy of the window (`_buzhash` reads at least one byte). -/
def ChunkerCfg.valid (c : ChunkerCfg) : Prop :=
  1 ≤ c.window_size ∧
    c.window_size + c.min_size + 1 ≤ c.buf_size

/-- Mutable state of a `Chunker`.  The C buffer `data[0 .. buf_size)` with
indices `last ≤ position ≤ position + remaining ≤ buf_size` is represented
by its live region: `pending = data[last .. position + remaining)` (the
bytes read but not yet returned) together with `posOff = position - last`;
`remaining` is `pending.length - posOff`.  `fill`'s `memmove` compaction
shifts the indices but leaves this representation unchanged.  `src` is the
not-yet-read tail of the input; `calls` counts `read` calls (consumed by
the read scheduler). -/
structure ChunkerState where
  pending : List Nat
  posOff : Nat
  eof : Bool
  done : Bool
  bytes_read : Nat
  bytes_yielded : Nat
  src : List Nat
  calls : Nat
deriving DecidableEq, Repr

def ChunkerState.remaining (st : ChunkerState) : Nat :=
  st.pending.length - st.posOff

/-- `Chunker.fill`: compact the buffer (a no-op on the `pending`
representation), then read up to `buf_size - position - remaining =
buf_size - pending.length` bytes from the source.  The scheduler `sched`
bounds how many bytes the `k`-th `read` call may return (a positive
scheduler models an arbitrary partitioning of the input into read
results); a zero-byte result sets `eof`. -/
def fillGot (cfg : ChunkerCfg) (sched : Nat → Nat) (st : ChunkerState) : Nat :=
  min (cfg.buf_size - st.pending.length) (min (sched st.calls) st.src.length)

def fill (cfg : ChunkerCfg) (sched : Nat → Nat) (st : ChunkerState) :
    ChunkerState :=
  if st.eof = true ∨ cfg.buf_size - st.pending.length = 0 then st
  else if fillGot cfg sched st = 0 then
    { st with eof := true, calls := st.calls + 1 }
  else
    { st with pending := st.pending ++ st.src.take (fillGot cfg sched st),
              src := st.src.drop (fillGot cfg sched st),
              bytes_read := st.bytes_read + (fillGot cfg sched st),
              calls := st.calls + 1 }

/-- The first `while` loop of `Chunker.process`:
`while remaining < min_size + window_size + 1 and not eof: fill()`. -/
def refillLoop (cfg : ChunkerCfg) (sched : Nat → Nat) :
    Nat → ChunkerState → Option ChunkerState
  | 0, _ => none
  | fuel + 1, st =>
    if st.remaining < cfg.min_size + cfg.window_size + 1 ∧ st.eof = false then
      refillLoop cfg sched fuel (fill cfg sched st)
    else some st

/-- The inner pointer scan of `Chunker.process`:
`while p < stop_at and (sum & chunk_mask): sum = _buzhash_update(sum, p[0],
p[window_size], window_size, table); p += 1`.  Indices are relative to
`last`, i.e. into `pending`. -/
def scanInner (cfg : ChunkerCfg) (pending : List Nat) :
    Nat → Nat → Nat → Nat × Nat
  | p, stop, sum =>
    if h : p < stop ∧ sum &&& cfg.chunk_mask ≠ 0 then
      scanInner cfg pending (p + 1) stop
        (buzhashUpdateH cfg.table sum (pending.getD p 0)
          (pending.getD (p + cfg.window_size) 0) cfg.window_size)
    else (p, sum)
termination_by p stop _ => stop - p
decreasing_by
  omega

/-- The outer cut-search loop of `Chunker.process`:
`while remaining > window_size and (sum & chunk_mask)`, scanning up to
`stop_at = position + remaining - window_size` and refilling when the
window reaches the end of the buffered bytes. -/
def scanLoop (cfg : ChunkerCfg) (sched : Nat → Nat) :
    Nat → ChunkerState → Nat → Option ChunkerState
  | 0, _, _ => none
  | fuel + 1, st, sum =>
    if cfg.window_size < st.remaining ∧ sum &&& cfg.chunk_mask ≠ 0 then
      scanLoop cfg sched fuel
        (if ({ st with posOff := (scanInner cfg st.pending st.posOff
                (st.pending.length - cfg.window_size) sum).1 } :
              ChunkerState).remaining ≤ cfg.window_size then
          fill cfg sched { st with posOff := (scanInner cfg st.pending st.posOff
            (st.pending.length - cfg.window_size) sum).1 }
        else
          { st with posOff := (scanInner cfg st.pending st.posOff
            (st.pending.length - cfg.window_size) sum).1 })
        (scanInner cfg st.pending st.posOff
          (st.pending.length - cfg.window_size) sum).2
    else some st

inductive ProcResult where
  | stop                       -- `StopIteration`
  | mismatch                   -- `Exception("chunkifier byte count mismatch")`
  | chunk (data : List Nat)    -- one returned memoryview
deriving DecidableEq, Repr

/-- Step 7 of `Chunker.process`: emit `data[last .. position)` as the chunk
(`n = position - last = posOff` bytes), advance `last` to `position` and
account the yielded bytes. -/
def processCut (st4 : ChunkerState) : ProcResult × ChunkerState :=
  (.chunk (st4.pending.take st4.posOff),
    { st4 with pending := st4.pending.drop st4.posOff, posOff := 0,
               bytes_yielded := st4.bytes_yielded + st4.posOff })

/-- Step 6 of `Chunker.process`: if at most a window of buffered bytes is
left, absorb it into the current chunk, then emit. -/
def processEmit (cfg : ChunkerCfg) (st3 : ChunkerState) :
    ProcResult × ChunkerState :=
  if st3.remaining ≤ cfg.window_size then
    processCut { st3 with posOff := st3.posOff + st3.remaining }
  else processCut st3

/-- `Chunker.process`: returns the next raw chunk (before the `__next__`
classification), or the end-of-iteration / error signal.  `fuel` bounds the
iterations of the two `while` loops. -/
def process (cfg : ChunkerCfg) (sched : Nat → Nat) (fuel : Nat)
    (st : ChunkerState) : Option (ProcResult × ChunkerState) :=
  if st.done = true then
    if st.bytes_read = st.bytes_yielded then some (.stop, st)
    else some (.mismatch, st)
  else
    match refillLoop cfg sched fuel st with
    | none => none
    | some st1 =>
      if st1.eof = true then
        if st1.remaining ≠ 0 then
          some (.chunk (st1.pending.drop st1.posOff),
            { st1 with done := true,
                       bytes_yielded := st1.bytes_yielded + st1.remaining })
        else if st1.bytes_read = st1.bytes_yielded then
          some (.stop, { st1 with done := true })
        else some (.mismatch, { st1 with done := true })
      else
        match scanLoop cfg sched fuel
            { st1 with posOff := st1.posOff + cfg.min_size }
            (buzhashList cfg.table
              ((st1.pending.drop (st1.posOff + cfg.min_size)).take
                cfg.window_size)) with
        | none => none
        | some st3 => some (processEmit cfg st3)

inductive RunOut where
  | ok (chunks : List (List Nat))
  | err (chunks : List (List Nat))
deriving DecidableEq, Repr

/-- Iterate `process` (one call per `__next__`) until `StopIteration` or
the mismatch exception, collecting the raw chunks in emission order. -/
def chunkerRunAux (cfg : ChunkerCfg) (sched : Nat → Nat) (pfuel : Nat) :
    Nat → ChunkerState → Option RunOut
  | 0, _ => none
  | fuel + 1, st =>
    match process cfg sched pfuel st with
    | none => none
    | some (.stop, _) => some (.ok [])
    | some (.mismatch, _) => some (.err [])
    | some (.chunk c, st') =>
      match chunkerRunAux cfg sched pfuel fuel st' with
      | none => none
      | some (.ok cs) => some (.ok (c :: cs))
      | some (.err cs) => some (.err (c :: cs))

/-- `chunkify(fd)`: reset the mutable state and bind the source. -/
def chunkifyInit (S : List Nat) : ChunkerState :=
  ⟨[], 0, false, false, 0, 0, S, 0⟩

/-- The full run of the content-defined chunker on input `S` with read
scheduler `sched`: the sequence of raw chunks returned by `process`. -/
def chunkerRun (cfg : ChunkerCfg) (sched : Nat → Nat) (S : List Nat) :
    Option RunOut :=
  chunkerRunAux cfg sched (S.length + cfg.buf_size + 2) (S.length + 2)
    (chunkifyInit S)

/-- The `__next__` classification of one raw chunk: all-zero payloads become
`CH_ALLOC` without payload, others `CH_DATA` with the payload; `size` is the
raw chunk's length either way. -/
def classifyNext (raw : List Nat) : ChunkRec :=
  if zerosStartswith raw then ⟨.CH_ALLOC, raw.length, none⟩
  else ⟨.CH_DATA, raw.length, some raw⟩

/-- The chunk records produced by iterating `Chunker.__next__`. -/
def chunkerRunChunks (cfg : ChunkerCfg) (sched : Nat → Nat) (S : List Nat) :
    Option (List ChunkRec) :=
  match chunkerRun cfg sched S with
  | some (.ok cs) => some (cs.map classifyNext)
  | _ => none

/-! ### Pure reference cutter -/

/-- Window hash of `T` at offset `j`. -/
def hashAt (cfg : ChunkerCfg) (T : List Nat) (j : Nat) : Nat :=
  buzhashList cfg.table ((T.drop j).take cfg.window_size)

/-- First offset `q` in `[j, j + count)` whose window hash matches the
mask. -/
def firstMatch (cfg : ChunkerCfg) (T : List Nat) : Nat → Nat → Option Nat
  | _, 0 => none
  | j, count + 1 =>
    if hashAt cfg T j &&& cfg.chunk_mask = 0 then some j
    else firstMatch cfg T (j + 1) count

/-- Pure reference cut: the size of the next chunk the machine cuts from
the unconsumed input `T`.  With fewer than `min_size + window_size + 1`
bytes left everything is emitted as one final chunk; otherwise the cut is at
the first mask match at or after `min_size` (windows are tested as long as
they fit strictly inside `min(|T|, buf_size)` bytes), and failing that, at
`min(|T|, buf_size)` (the EOF or maximum-chunk bound). -/
def pureCut (cfg : ChunkerCfg) (T : List Nat) : Nat :=
  if T.length < cfg.min_size + cfg.window_size + 1 then T.length
  else
    match firstMatch cfg T cfg.min_size
        (min T.length cfg.buf_size - cfg.window_size - cfg.min_size) with
    | some q => q
    | none => min T.length cfg.buf_size

theorem firstMatch_ge (cfg : ChunkerCfg) (T : List Nat) :
    ∀ count j q, firstMatch cfg T j count = some q → j ≤ q := by
  intro count
  induction count with
  | zero =>
    intro j q h
    exact absurd h (by simp [firstMatch])
  | succ count ih =>
    intro j q h
    rw [firstMatch] at h
    by_cases hm : hashAt cfg T j &&& cfg.chunk_mask = 0
    · rw [if_pos hm] at h
      simp at h
      omega
    · rw [if_neg hm] at h
      have := ih (j + 1) q h
      omega

theorem pureCut_pos (cfg : ChunkerCfg) (T : List Nat) (hT : T ≠ []) :
    1 ≤ pureCut cfg T := by
  have hlen : 1 ≤ T.length := by
    cases T
    · exact absurd rfl hT
    · simp
  unfold pureCut
  by_cases hshort : T.length < cfg.min_size + cfg.window_size + 1
  · rw [if_pos hshort]
    exact hlen
  · rw [if_neg hshort]
    have hmin : 1 ≤ cfg.min_size := Nat.one_le_two_pow
    have hbuf : 1 ≤ cfg.buf_size := Nat.one_le_two_pow
    cases hfm : firstMatch cfg T cfg.min_size
        (min T.length cfg.buf_size - cfg.window_size - cfg.min_size) with
    | some q =>
      show 1 ≤ q
      have := firstMatch_ge cfg T _ _ _ hfm
      omega
    | none =>
      show 1 ≤ min T.length cfg.buf_size
      omega

/-- The chunk sizes the machine produces, computed purely from the input. -/
def pureChunks (cfg : ChunkerCfg) : List Nat → List (List Nat)
  | [] => []
  | t :: ts =>
    (t :: ts).take (pureCut cfg (t :: ts)) ::
      pureChunks cfg ((t :: ts).drop (pureCut cfg (t :: ts)))
termination_by T => T.length
decreasing_by
  have h1 : 1 ≤ pureCut cfg (t :: ts) := pureCut_pos cfg (t :: ts) (by simp)
  simp only [List.length_drop, List.length_cons]
  omega

/-! ### Machine-to-pure equivalence -/

theorem take_add_append (l : List α) (r g : Nat) :
    l.take r ++ (l.drop r).take g = l.take (r + g) := by
  have h1 : (l.drop r).take g = (l.take (r + g)).drop r := by
    rw [List.take_drop]
  have h2 : (l.take (r + g)).take r = l.take r := by
    rw [List.take_take]
    congr 1
    omega
  rw [h1, ← h2, List.take_append_drop]

/-- The canonical machine state during a run: `y` bytes of `S` already
yielded, `r` further bytes buffered, scan offset `j` into the buffer,
eof flag `e`, read-call counter `c`. -/
def midState (S : List Nat) (y r j : Nat) (e : Bool) (c : Nat) : ChunkerState :=
  ⟨(S.drop y).take r, j, e, false, y + r, y, S.drop (y + r), c⟩

theorem midState_pending_length (S : List Nat) (y r j : Nat) (e : Bool) (c : Nat)
    (hr : y + r ≤ S.length) : (midState S y r j e c).pending.length = r := by
  simp only [midState, List.length_take, List.length_drop]
  omega

theorem midState_remaining (S : List Nat) (y r j : Nat) (e : Bool) (c : Nat)
    (hr : y + r ≤ S.length) : (midState S y r j e c).remaining = r - j := by
  simp only [ChunkerState.remaining, midState, List.length_take, List.length_drop]
  omega

theorem table_lt (cfg : ChunkerCfg) : ∀ i, cfg.table i < 2 ^ 32 :=
  seeded_table_lt cfg.seed

theorem fillGot_mid (cfg : ChunkerCfg) (sched : Nat → Nat) (S : List Nat)
    (y r j c : Nat) (e : Bool) (hr : y + r ≤ S.length) :
    fillGot cfg sched (midState S y r j e c) =
      min (cfg.buf_size - r) (min (sched c) (S.length - (y + r))) := by
  unfold fillGot
  rw [midState_pending_length _ _ _ _ _ _ hr]
  have hsrc : (midState S y r j e c).src.length = S.length - (y + r) := by
    simp [midState]
  rw [hsrc]
  rfl

theorem fill_mid (cfg : ChunkerCfg) (sched : Nat → Nat) (hs : ∀ k, 1 ≤ sched k)
    (S : List Nat) (y r j c : Nat)
    (hr : y + r ≤ S.length) (hn : r < cfg.buf_size) :
    fill cfg sched (midState S y r j false c) =
      if S.length = y + r then midState S y r j true (c + 1)
      else midState S y
        (r + min (cfg.buf_size - r) (min (sched c) (S.length - (y + r)))) j
        false (c + 1) := by
  have hplen := midState_pending_length S y r j false c hr
  have hgoteq := fillGot_mid cfg sched S y r j c false hr
  unfold fill
  rw [hplen, hgoteq]
  rw [if_neg (by simp [midState]; omega)]
  by_cases hend : S.length = y + r
  · rw [if_pos hend]
    have hgot : min (cfg.buf_size - r) (min (sched c) (S.length - (y + r))) = 0 := by
      omega
    rw [if_pos hgot]
    rfl
  · rw [if_neg hend]
    have hgot : min (cfg.buf_size - r) (min (sched c) (S.length - (y + r))) ≠ 0 := by
      have := hs c
      omega
    rw [if_neg hgot]
    show ChunkerState.mk
        ((S.drop y).take r ++ (S.drop (y + r)).take
          (min (cfg.buf_size - r) (min (sched c) (S.length - (y + r)))))
        j false false
        (y + r + min (cfg.buf_size - r) (min (sched c) (S.length - (y + r)))) y
        ((S.drop (y + r)).drop
          (min (cfg.buf_size - r) (min (sched c) (S.length - (y + r)))))
        (c + 1) = _
    set g := min (cfg.buf_size - r) (min (sched c) (S.length - (y + r))) with hg
    show _ = ChunkerState.mk ((S.drop y).take (r + g)) j false false
      (y + (r + g)) y (S.drop (y + (r + g))) (c + 1)
    have h1 : (S.drop y).take r ++ (S.drop (y + r)).take g =
        (S.drop y).take (r + g) := by
      rw [← List.drop_drop, take_add_append]
    have h2 : (S.drop (y + r)).drop g = S.drop (y + (r + g)) := by
      rw [List.drop_drop]
      congr 1
      omega
    rw [h1, h2, Nat.add_assoc]

theorem fill_full (cfg : ChunkerCfg) (sched : Nat → Nat) (st : ChunkerState)
    (h : st.pending.length = cfg.buf_size) : fill cfg sched st = st := by
  unfold fill
  rw [if_pos (by rw [h]; simp)]

theorem refillLoop_exit (cfg : ChunkerCfg) (sched : Nat → Nat) (fuel : Nat)
    (st : ChunkerState)
    (h : ¬(st.remaining < cfg.min_size + cfg.window_size + 1 ∧ st.eof = false)) :
    refillLoop cfg sched (fuel + 1) st = some st := by
  rw [refillLoop, if_neg h]

theorem refillLoop_short (cfg : ChunkerCfg) (sched : Nat → Nat) (hv : cfg.valid)
    (hs : ∀ k, 1 ≤ sched k) (S : List Nat) (y : Nat)
    (hshort : S.length - y < cfg.min_size + cfg.window_size + 1)
    (hy : y ≤ S.length) :
    ∀ fuel r c, y + r ≤ S.length → S.length - (y + r) + 2 ≤ fuel →
      ∃ c', refillLoop cfg sched fuel (midState S y r 0 false c) =
        some (midState S y (S.length - y) 0 true c') := by
  intro fuel
  induction fuel with
  | zero =>
    intro r c hr hf
    omega
  | succ fuel ih =>
    intro r c hr hf
    have hrem := midState_remaining S y r 0 false c hr
    have hrbuf : r < cfg.buf_size := by
      have := hv.2
      omega
    rw [refillLoop, if_pos ⟨by rw [hrem]; omega, rfl⟩,
      fill_mid cfg sched hs S y r 0 c hr hrbuf]
    by_cases hend : S.length = y + r
    · rw [if_pos hend]
      have hr' : r = S.length - y := by omega
      subst hr'
      cases fuel with
      | zero => omega
      | succ fuel =>
        refine ⟨c + 1, refillLoop_exit _ _ _ _ ?_⟩
        simp [midState]
    · rw [if_neg hend]
      have hpos := hs c
      exact ih (r + min (cfg.buf_size - r) (min (sched c) (S.length - (y + r))))
        (c + 1) (by omega) (by omega)

theorem refillLoop_long (cfg : ChunkerCfg) (sched : Nat → Nat) (hv : cfg.valid)
    (hs : ∀ k, 1 ≤ sched k) (S : List Nat) (y : Nat)
    (hlong : cfg.min_size + cfg.window_size + 1 ≤ S.length - y) :
    ∀ fuel r c, y + r ≤ S.length → r ≤ cfg.buf_size →
      S.length - (y + r) + 2 ≤ fuel →
      ∃ r' c', refillLoop cfg sched fuel (midState S y r 0 false c) =
        some (midState S y r' 0 false c') ∧
        cfg.min_size + cfg.window_size + 1 ≤ r' ∧
        y + r' ≤ S.length ∧ r' ≤ cfg.buf_size := by
  intro fuel
  induction fuel with
  | zero =>
    intro r c hr hbuf hf
    omega
  | succ fuel ih =>
    intro r c hr hbuf hf
    have hrem := midState_remaining S y r 0 false c hr
    by_cases hbig : cfg.min_size + cfg.window_size + 1 ≤ r
    · refine ⟨r, c, refillLoop_exit _ _ _ _ ?_, hbig, hr, hbuf⟩
      rw [hrem]
      intro hcon
      omega
    · have hrbuf : r < cfg.buf_size := by
        have := hv.2
        omega
      rw [refillLoop, if_pos ⟨by rw [hrem]; omega, rfl⟩,
        fill_mid cfg sched hs S y r 0 c hr hrbuf]
      have hend : S.length ≠ y + r := by omega
      rw [if_neg hend]
      have hpos := hs c
      exact ih (r + min (cfg.buf_size - r) (min (sched c) (S.length - (y + r))))
        (c + 1) (by omega) (by omega) (by omega)

theorem getElem?_drop_eq (l : List α) : ∀ p i, (l.drop p)[i]? = l[p + i]? := by
  induction l with
  | nil =>
    intro p i
    simp
  | cons a l ih =>
    intro p i
    cases p with
    | zero => simp
    | succ p =>
      show (l.drop p)[i]? = _
      rw [ih p i]
      have h1 : p + 1 + i = p + i + 1 := by omega
      rw [h1, List.getElem?_cons_succ]

theorem getD_drop (l : List Nat) (p i : Nat) :
    (l.drop p).getD i 0 = l.getD (p + i) 0 := by
  rw [List.getD_eq_getElem?_getD, List.getD_eq_getElem?_getD, getElem?_drop_eq]

/-- One `_buzhash_update` step moves the window hash one byte forward. -/
theorem hashAt_succ (cfg : ChunkerCfg) (hW : 1 ≤ cfg.window_size)
    (xs : List Nat) (p : Nat) (hp : p + 1 + cfg.window_size ≤ xs.length) :
    buzhashUpdateH cfg.table (hashAt cfg xs p) (xs.getD p 0)
      (xs.getD (p + cfg.window_size) 0) cfg.window_size =
      hashAt cfg xs (p + 1) := by
  have hlen : ((xs.drop p).take (cfg.window_size + 1)).length =
      cfg.window_size + 1 := by
    rw [List.length_take, List.length_drop]
    omega
  have h := buzhash_roll cfg.table (table_lt cfg) cfg.window_size hW
    ((xs.drop p).take (cfg.window_size + 1)) hlen
  have e1 : ((xs.drop p).take (cfg.window_size + 1)).take cfg.window_size =
      (xs.drop p).take cfg.window_size := by
    rw [List.take_take]
    congr 1
    omega
  have e2 : ((xs.drop p).take (cfg.window_size + 1)).getD 0 0 = xs.getD p 0 := by
    rw [List.getD_eq_getElem?_getD, List.getElem?_take_of_lt (by omega),
      ← List.getD_eq_getElem?_getD, getD_drop, Nat.add_zero]
  have e3 : ((xs.drop p).take (cfg.window_size + 1)).getD cfg.window_size 0 =
      xs.getD (p + cfg.window_size) 0 := by
    rw [List.getD_eq_getElem?_getD, List.getElem?_take_of_lt (by omega),
      ← List.getD_eq_getElem?_getD, getD_drop]
  have e4 : ((xs.drop p).take (cfg.window_size + 1)).drop 1 =
      (xs.drop (p + 1)).take cfg.window_size := by
    rw [drop_take_comm _ 1 (cfg.window_size + 1) (by omega), List.drop_drop]
    rfl
  rw [e1, e2, e3, e4] at h
  exact h

theorem firstMatch_lt (cfg : ChunkerCfg) (T : List Nat) :
    ∀ count j q, firstMatch cfg T j count = some q → q < j + count := by
  intro count
  induction count with
  | zero =>
    intro j q h
    exact absurd h (by simp [firstMatch])
  | succ count ih =>
    intro j q h
    rw [firstMatch] at h
    by_cases hm : hashAt cfg T j &&& cfg.chunk_mask = 0
    · rw [if_pos hm] at h
      simp at h
      omega
    · rw [if_neg hm] at h
      have := ih (j + 1) q h
      omega

theorem firstMatch_mask (cfg : ChunkerCfg) (T : List Nat) :
    ∀ count j q, firstMatch cfg T j count = some q →
      hashAt cfg T q &&& cfg.chunk_mask = 0 := by
  intro count
  induction count with
  | zero =>
    intro j q h
    exact absurd h (by simp [firstMatch])
  | succ count ih =>
    intro j q h
    rw [firstMatch] at h
    by_cases hm : hashAt cfg T j &&& cfg.chunk_mask = 0
    · rw [if_pos hm] at h
      simp at h
      rw [← h]
      exact hm
    · rw [if_neg hm] at h
      exact ih (j + 1) q h

/-- The inner scan computes exactly the first mask match in its range. -/
theorem scanInner_spec (cfg : ChunkerCfg) (hW : 1 ≤ cfg.window_size)
    (pending : List Nat) :
    ∀ cnt p, p + cnt + cfg.window_size ≤ pending.length →
      scanInner cfg pending p (p + cnt) (hashAt cfg pending p) =
        match firstMatch cfg pending p cnt with
        | some q => (q, hashAt cfg pending q)
        | none => (p + cnt, hashAt cfg pending (p + cnt)) := by
  intro cnt
  induction cnt with
  | zero =>
    intro p hle
    rw [scanInner, dif_neg (by omega)]
    rfl
  | succ cnt ih =>
    intro p hle
    by_cases hm : hashAt cfg pending p &&& cfg.chunk_mask = 0
    · rw [scanInner, dif_neg (by simp [hm])]
      rw [firstMatch, if_pos hm]
    · rw [scanInner, dif_pos ⟨by omega, hm⟩]
      rw [hashAt_succ cfg hW pending p (by omega)]
      have hstep : p + (cnt + 1) = (p + 1) + cnt := by omega
      rw [hstep]
      rw [ih (p + 1) (by omega)]
      rw [firstMatch, if_neg hm]

theorem hashAt_prefix (cfg : ChunkerCfg) (T : List Nat) (r j : Nat)
    (h : j + cfg.window_size ≤ r) :
    hashAt cfg (T.take r) j = hashAt cfg T j := by
  unfold hashAt
  congr 1
  rw [drop_take_comm _ j r (by omega), List.take_take]
  congr 1
  omega

theorem firstMatch_prefix (cfg : ChunkerCfg) (T : List Nat) (r : Nat) :
    ∀ cnt j, j + cnt + cfg.window_size ≤ r →
      firstMatch cfg (T.take r) j cnt = firstMatch cfg T j cnt := by
  intro cnt
  induction cnt with
  | zero =>
    intro j hle
    rfl
  | succ cnt ih =>
    intro j hle
    rw [firstMatch, firstMatch, hashAt_prefix cfg T r j (by omega),
      ih (j + 1) (by omega)]

theorem firstMatch_append (cfg : ChunkerCfg) (T : List Nat) :
    ∀ c1 c2 j, firstMatch cfg T j (c1 + c2) =
      (match firstMatch cfg T j c1 with
       | some q => some q
       | none => firstMatch cfg T (j + c1) c2) := by
  intro c1
  induction c1 with
  | zero =>
    intro c2 j
    simp [firstMatch]
  | succ c1 ih =>
    intro c2 j
    have hsh : c1 + 1 + c2 = (c1 + c2) + 1 := by omega
    rw [hsh, firstMatch, firstMatch]
    by_cases hm : hashAt cfg T j &&& cfg.chunk_mask = 0
    · rw [if_pos hm, if_pos hm]
    · rw [if_neg hm, if_neg hm, ih c2 (j + 1)]
      have hj : j + 1 + c1 = j + (c1 + 1) := by omega
      rw [hj]

theorem scanLoop_step (cfg : ChunkerCfg) (sched : Nat → Nat) (fuel : Nat)
    (st : ChunkerState) (sum p' sum' : Nat)
    (hguard : cfg.window_size < st.remaining ∧ sum &&& cfg.chunk_mask ≠ 0)
    (hscan : scanInner cfg st.pending st.posOff
        (st.pending.length - cfg.window_size) sum = (p', sum')) :
    scanLoop cfg sched (fuel + 1) st sum =
      scanLoop cfg sched fuel
        (if ({ st with posOff := p' } : ChunkerState).remaining ≤ cfg.window_size
         then fill cfg sched { st with posOff := p' }
         else { st with posOff := p' }) sum' := by
  rw [scanLoop, if_pos hguard, hscan]

theorem scanLoop_exit (cfg : ChunkerCfg) (sched : Nat → Nat) (fuel : Nat)
    (st : ChunkerState) (sum : Nat)
    (h : ¬(cfg.window_size < st.remaining ∧ sum &&& cfg.chunk_mask ≠ 0)) :
    scanLoop cfg sched (fuel + 1) st sum = some st := by
  rw [scanLoop, if_neg h]

/-- Specification of the cut-search loop: from a mid-scan state it stops at
the first mask match (leaving more than a window of buffered bytes), or —
when no window in range matches — drains the stream / fills the buffer up to
`M = min(|T|, buf_size)` and stops with exactly one window left, which the
caller absorbs (EOF or maximum-chunk cut at `M`). -/
theorem scanLoop_spec (cfg : ChunkerCfg) (hv : cfg.valid) (sched : Nat → Nat)
    (hs : ∀ k, 1 ≤ sched k) (S : List Nat) (y : Nat) :
    ∀ fuel j r c,
      y + r ≤ S.length →
      r ≤ cfg.buf_size →
      j + cfg.window_size < r →
      min (S.length - y) cfg.buf_size + 2 ≤ fuel + j →
      (match firstMatch cfg (S.drop y) j
          (min (S.length - y) cfg.buf_size - cfg.window_size - j) with
       | some q =>
         ∃ r' c', scanLoop cfg sched fuel (midState S y r j false c)
             (hashAt cfg (S.drop y) j) = some (midState S y r' q false c') ∧
           q + cfg.window_size < r' ∧ y + r' ≤ S.length ∧ r' ≤ cfg.buf_size
       | none =>
         ∃ e c', scanLoop cfg sched fuel (midState S y r j false c)
             (hashAt cfg (S.drop y) j) =
             some (midState S y (min (S.length - y) cfg.buf_size)
               (min (S.length - y) cfg.buf_size - cfg.window_size) e c') ∧
           (e = true → S.length - y ≤ cfg.buf_size)) := by
  have hW := hv.1
  intro fuel
  induction fuel with
  | zero =>
    intro j r c hr hbuf hjr hfuel
    exfalso
    omega
  | succ fuel ih =>
    intro j r c hr hbuf hjr hfuel
    have hrem := midState_remaining S y r j false c hr
    have hplen := midState_pending_length S y r j false c hr
    have hrM : r ≤ min (S.length - y) cfg.buf_size := by omega
    by_cases hm : hashAt cfg (S.drop y) j &&& cfg.chunk_mask = 0
    · -- mask already matches: the loop body never runs, cut at `j`
      have hfm : firstMatch cfg (S.drop y) j
          (min (S.length - y) cfg.buf_size - cfg.window_size - j) = some j := by
        obtain ⟨k, hk⟩ : ∃ k,
            min (S.length - y) cfg.buf_size - cfg.window_size - j = k + 1 :=
          ⟨min (S.length - y) cfg.buf_size - cfg.window_size - j - 1, by omega⟩
        rw [hk, firstMatch, if_pos hm]
      rw [hfm]
      exact ⟨r, c, scanLoop_exit cfg sched fuel _ _ (fun hcon => hcon.2 hm),
        hjr, hr, hbuf⟩
    · -- run the inner scan over the buffered bytes
      have hplen' : ((S.drop y).take r).length = r := by
        rw [List.length_take, List.length_drop]
        omega
      have hcnt0 : 1 ≤ r - cfg.window_size - j := by omega
      have hscan0 := scanInner_spec cfg hW ((S.drop y).take r)
        (r - cfg.window_size - j) j (by rw [hplen']; omega)
      have hfm_pre : firstMatch cfg ((S.drop y).take r) j
          (r - cfg.window_size - j) =
          firstMatch cfg (S.drop y) j (r - cfg.window_size - j) :=
        firstMatch_prefix cfg (S.drop y) r (r - cfg.window_size - j) j (by omega)
      have hpre : hashAt cfg ((S.drop y).take r) j = hashAt cfg (S.drop y) j :=
        hashAt_prefix cfg (S.drop y) r j (by omega)
      rw [hpre, hfm_pre] at hscan0
      have hsplit := firstMatch_append cfg (S.drop y) (r - cfg.window_size - j)
        (min (S.length - y) cfg.buf_size - r)
        j
      have hcnta : r - cfg.window_size - j +
          (min (S.length - y) cfg.buf_size - r) =
          min (S.length - y) cfg.buf_size - cfg.window_size - j := by omega
      rw [hcnta] at hsplit
      have hjcnt : j + (r - cfg.window_size - j) = r - cfg.window_size := by omega
      cases hfmp : firstMatch cfg (S.drop y) j (r - cfg.window_size - j) with
      | some q =>
        rw [hfmp] at hsplit hscan0
        rw [hjcnt] at hscan0
        have hsplit' : firstMatch cfg (S.drop y) j
            (min (S.length - y) cfg.buf_size - cfg.window_size - j) = some q :=
          hsplit.trans rfl
        have hscan0' : scanInner cfg ((S.drop y).take r) j (r - cfg.window_size)
            (hashAt cfg (S.drop y) j) =
            (q, hashAt cfg ((S.drop y).take r) q) := hscan0.trans rfl
        rw [hsplit']
        have hq1 : j ≤ q := firstMatch_ge _ _ _ _ _ hfmp
        have hq2 : q < j + (r - cfg.window_size - j) :=
          firstMatch_lt _ _ _ _ _ hfmp
        have hqmask : hashAt cfg (S.drop y) q &&& cfg.chunk_mask = 0 :=
          firstMatch_mask _ _ _ _ _ hfmp
        have hscan1 : scanInner cfg (midState S y r j false c).pending
            (midState S y r j false c).posOff
            ((midState S y r j false c).pending.length - cfg.window_size)
            (hashAt cfg (S.drop y) j) =
            (q, hashAt cfg ((S.drop y).take r) q) := by
          show scanInner cfg ((S.drop y).take r) j
            (((S.drop y).take r).length - cfg.window_size) _ = _
          rw [hplen']
          exact hscan0'
        rw [scanLoop_step cfg sched fuel _ _ _ _ ⟨by omega, hm⟩ hscan1]
        have hst1 : ({ midState S y r j false c with posOff := q } :
            ChunkerState) = midState S y r q false c := rfl
        rw [hst1]
        have hrem1 := midState_remaining S y r q false c hr
        rw [if_neg (by rw [hrem1]; omega)]
        have hpre2 : hashAt cfg ((S.drop y).take r) q =
            hashAt cfg (S.drop y) q :=
          hashAt_prefix cfg (S.drop y) r q (by omega)
        rw [hpre2]
        obtain ⟨f1, rfl⟩ : ∃ f1, fuel = f1 + 1 := ⟨fuel - 1, by omega⟩
        exact ⟨r, c, scanLoop_exit cfg sched f1 _ _ (fun hcon => hcon.2 hqmask),
          by omega, hr, hbuf⟩
      | none =>
        rw [hfmp] at hsplit hscan0
        rw [hjcnt] at hscan0
        have hsplit' : firstMatch cfg (S.drop y) j
            (min (S.length - y) cfg.buf_size - cfg.window_size - j) =
            firstMatch cfg (S.drop y) (r - cfg.window_size)
              (min (S.length - y) cfg.buf_size - r) := by
          rw [hjcnt] at hsplit
          exact hsplit.trans rfl
        have hscan0' : scanInner cfg ((S.drop y).take r) j (r - cfg.window_size)
            (hashAt cfg (S.drop y) j) =
            (r - cfg.window_size,
              hashAt cfg ((S.drop y).take r) (r - cfg.window_size)) :=
          hscan0.trans rfl
        rw [hsplit']
        have hscan1 : scanInner cfg (midState S y r j false c).pending
            (midState S y r j false c).posOff
            ((midState S y r j false c).pending.length - cfg.window_size)
            (hashAt cfg (S.drop y) j) =
            (r - cfg.window_size,
              hashAt cfg ((S.drop y).take r) (r - cfg.window_size)) := by
          show scanInner cfg ((S.drop y).take r) j
            (((S.drop y).take r).length - cfg.window_size) _ = _
          rw [hplen']
          exact hscan0'
        rw [scanLoop_step cfg sched fuel _ _ _ _ ⟨by omega, hm⟩ hscan1]
        have hst1 : ({ midState S y r j false c with
            posOff := r - cfg.window_size } : ChunkerState) =
            midState S y r (r - cfg.window_size) false c := rfl
        rw [hst1]
        have hrem1 := midState_remaining S y r (r - cfg.window_size) false c hr
        rw [if_pos (by rw [hrem1]; omega)]
        have hpre2 : hashAt cfg ((S.drop y).take r) (r - cfg.window_size) =
            hashAt cfg (S.drop y) (r - cfg.window_size) :=
          hashAt_prefix cfg (S.drop y) r (r - cfg.window_size) (by omega)
        rw [hpre2]
        by_cases hfull : r = cfg.buf_size
        · -- buffer already holds `max_size` unreturned bytes: maximum cut
          have hMfull : min (S.length - y) cfg.buf_size = r := by omega
          have hfillid : fill cfg sched
              (midState S y r (r - cfg.window_size) false c) =
              midState S y r (r - cfg.window_size) false c :=
            fill_full cfg sched _ (by
              rw [midState_pending_length _ _ _ _ _ _ hr]
              omega)
          rw [hfillid]
          have hnone : firstMatch cfg (S.drop y) (r - cfg.window_size)
              (min (S.length - y) cfg.buf_size - r) = none := by
            have hzero : min (S.length - y) cfg.buf_size - r = 0 := by omega
            rw [hzero]
            rfl
          rw [hnone]
          obtain ⟨f1, rfl⟩ : ∃ f1, fuel = f1 + 1 := ⟨fuel - 1, by omega⟩
          refine ⟨false, c, ?_, by simp⟩
          rw [scanLoop_exit cfg sched f1 _ _
            (fun hcon => by rw [hrem1] at hcon; omega), hMfull]
        · -- room to refill
          have hfill := fill_mid cfg sched hs S y r (r - cfg.window_size) c hr
            (by omega)
          by_cases hend : S.length = y + r
          · -- the source is exhausted: EOF cut at `M = |T|`
            rw [hfill, if_pos hend]
            have hM : min (S.length - y) cfg.buf_size = r := by omega
            have hnone : firstMatch cfg (S.drop y) (r - cfg.window_size)
                (min (S.length - y) cfg.buf_size - r) = none := by
              have hzero : min (S.length - y) cfg.buf_size - r = 0 := by omega
              rw [hzero]
              rfl
            rw [hnone]
            obtain ⟨f1, rfl⟩ : ∃ f1, fuel = f1 + 1 := ⟨fuel - 1, by omega⟩
            have hrem2 := midState_remaining S y r (r - cfg.window_size) true
              (c + 1) hr
            refine ⟨true, c + 1, ?_, by omega⟩
            rw [scanLoop_exit cfg sched f1 _ _
              (fun hcon => by rw [hrem2] at hcon; omega), hM]
          · -- more data arrives: resume scanning from the window position
            rw [hfill, if_neg hend]
            have hg : 1 ≤ min (cfg.buf_size - r)
                (min (sched c) (S.length - (y + r))) := by
              have := hs c
              omega
            have hih := ih (r - cfg.window_size)
              (r + min (cfg.buf_size - r) (min (sched c) (S.length - (y + r))))
              (c + 1) (by omega) (by omega) (by omega) (by omega)
            have hcount : min (S.length - y) cfg.buf_size - cfg.window_size -
                (r - cfg.window_size) = min (S.length - y) cfg.buf_size - r := by
              omega
            rw [hcount] at hih
            cases hfmp2 : firstMatch cfg (S.drop y) (r - cfg.window_size)
                (min (S.length - y) cfg.buf_size - r) with
            | some q2 =>
              rw [hfmp2] at hih
              obtain ⟨r2, c2, hrun2, hb1, hb2, hb3⟩ := hih
              exact ⟨r2, c2, hrun2, hb1, hb2, hb3⟩
            | none =>
              rw [hfmp2] at hih
              obtain ⟨e2, c2, hrun2, he2⟩ := hih
              exact ⟨e2, c2, hrun2, he2⟩

theorem processCut_mid (S : List Nat) (y r2 q c2 : Nat) (e2 : Bool)
    (hq : q ≤ r2) (hr : y + r2 ≤ S.length) :
    processCut (midState S y r2 q e2 c2) =
      (ProcResult.chunk ((S.drop y).take q),
        midState S (y + q) (r2 - q) 0 e2 c2) := by
  unfold processCut
  have h1 : ((S.drop y).take r2).take q = (S.drop y).take q := by
    rw [List.take_take]
    congr 1
    omega
  have h2 : ((S.drop y).take r2).drop q = (S.drop (y + q)).take (r2 - q) := by
    rw [drop_take_comm _ q r2 hq, List.drop_drop]
  show (ProcResult.chunk (((S.drop y).take r2).take q),
      ChunkerState.mk (((S.drop y).take r2).drop q) 0 e2 false (y + r2) (y + q)
        (S.drop (y + r2)) c2) = _
  rw [h1, h2]
  have h3 : y + r2 = y + q + (r2 - q) := by omega
  rw [h3]
  rfl

/-- One `process` call from a well-formed inter-chunk state: with an empty
unconsumed tail it signals `StopIteration`; otherwise it returns exactly the
chunk `T.take (pureCut T)` of the unconsumed tail `T` and either finishes
(final short chunk) or leaves a well-formed state for the next chunk. -/
theorem process_spec (cfg : ChunkerCfg) (hv : cfg.valid) (sched : Nat → Nat)
    (hs : ∀ k, 1 ≤ sched k) (S : List Nat) (y r c : Nat) (e : Bool)
    (hr : y + r ≤ S.length) (hbuf : r ≤ cfg.buf_size)
    (he : e = true → r = 0 ∧ y = S.length)
    (pfuel : Nat) (hpf : S.length + cfg.buf_size + 2 ≤ pfuel) :
    (S.drop y = [] →
      ∃ st', process cfg sched pfuel (midState S y r 0 e c) =
        some (.stop, st')) ∧
    (S.drop y ≠ [] →
      ∃ st', process cfg sched pfuel (midState S y r 0 e c) =
          some (.chunk ((S.drop y).take (pureCut cfg (S.drop y))), st') ∧
        ((st'.done = true ∧ st'.bytes_read = st'.bytes_yielded ∧
            y + pureCut cfg (S.drop y) = S.length) ∨
         (∃ r' c' e', st' = midState S (y + pureCut cfg (S.drop y)) r' 0 e' c' ∧
            y + pureCut cfg (S.drop y) + r' ≤ S.length ∧ r' ≤ cfg.buf_size ∧
            (e' = true → r' = 0 ∧ y + pureCut cfg (S.drop y) = S.length)))) := by
  have hW := hv.1
  have hy : y ≤ S.length := by omega
  have hdone : (midState S y r 0 e c).done = false := rfl
  obtain ⟨pf1, rfl⟩ : ∃ pf1, pfuel = pf1 + 1 := ⟨pfuel - 1, by omega⟩
  cases e with
  | true =>
    obtain ⟨hr0, hyL⟩ := he rfl
    subst hr0
    constructor
    · intro _
      refine ⟨{ midState S y 0 0 true c with done := true }, ?_⟩
      unfold process
      rw [if_neg (by rw [hdone]; simp)]
      rw [refillLoop_exit cfg sched pf1 _ (by
        rw [midState_remaining _ _ _ _ _ _ hr]
        simp [midState])]
      simp only []
      rw [if_pos (show (midState S y 0 0 true c).eof = true from rfl)]
      rw [if_neg (show ¬((midState S y 0 0 true c).remaining ≠ 0) by
        rw [midState_remaining _ _ _ _ _ _ hr]
        simp)]
      rw [if_pos (show (midState S y 0 0 true c).bytes_read =
          (midState S y 0 0 true c).bytes_yielded by
        show y + 0 = y
        omega)]
    · intro hne
      exact absurd (by rw [hyL, List.drop_length]) hne
  | false =>
    by_cases hempty : S.length - y = 0
    · -- no bytes left at all
      have hTnil : S.drop y = [] := by
        rw [List.drop_eq_nil_iff]
        omega
      constructor
      · intro _
        have hr0 : r = 0 := by omega
        subst hr0
        obtain ⟨c1, hloop⟩ := refillLoop_short cfg sched hv hs S y (by omega) hy
          (pf1 + 1) 0 c hr (by omega)
        refine ⟨{ midState S y (S.length - y) 0 true c1 with done := true }, ?_⟩
        unfold process
        rw [if_neg (by rw [hdone]; simp)]
        rw [hloop]
        simp only []
        rw [if_pos (show (midState S y (S.length - y) 0 true c1).eof = true
          from rfl)]
        rw [if_neg (show ¬((midState S y (S.length - y) 0 true c1).remaining ≠ 0)
          by
            rw [midState_remaining _ _ _ _ _ _ (by omega)]
            omega)]
        rw [if_pos (show (midState S y (S.length - y) 0 true c1).bytes_read =
            (midState S y (S.length - y) 0 true c1).bytes_yielded by
          show y + (S.length - y) = y
          omega)]
      · intro hne
        exact absurd hTnil hne
    · constructor
      · intro hnil
        rw [List.drop_eq_nil_iff] at hnil
        omega
      · intro _
        have hTlen : (S.drop y).length = S.length - y := by
          rw [List.length_drop]
        by_cases hshort : S.length - y < cfg.min_size + cfg.window_size + 1
        · -- short tail: everything left is emitted as the final chunk
          have hcut : pureCut cfg (S.drop y) = S.length - y := by
            unfold pureCut
            rw [hTlen, if_pos hshort]
          obtain ⟨c1, hloop⟩ := refillLoop_short cfg sched hv hs S y hshort hy
            (pf1 + 1) r c hr (by omega)
          have hproc : process cfg sched (pf1 + 1) (midState S y r 0 false c) =
              some (.chunk ((S.drop y).take (pureCut cfg (S.drop y))),
                { midState S y (S.length - y) 0 true c1 with done := true, bytes_yielded := (midState S y (S.length - y) 0 true c1).bytes_yielded + (midState S y (S.length - y) 0 true c1).remaining }) := by
            unfold process
            rw [if_neg (by rw [hdone]; simp)]
            rw [hloop]
            simp only []
            rw [if_pos (show (midState S y (S.length - y) 0 true c1).eof = true
              from rfl)]
            rw [if_pos (show (midState S y (S.length - y) 0 true c1).remaining
                ≠ 0 by
              rw [midState_remaining _ _ _ _ _ _ (by omega)]
              omega)]
            rw [hcut]
            rfl
          refine ⟨_, hproc, Or.inl ⟨rfl, ?_, by rw [hcut]; omega⟩⟩
          show (midState S y (S.length - y) 0 true c1).bytes_read =
            (midState S y (S.length - y) 0 true c1).bytes_yielded +
              (midState S y (S.length - y) 0 true c1).remaining
          rw [midState_remaining _ _ _ _ _ _ (by omega)]
          show y + (S.length - y) = y + (S.length - y - 0)
          omega
        · -- full chunk: refill to at least min+W+1 bytes, then scan
          obtain ⟨r1, c1, hloop, hr1a, hr1b, hr1c⟩ := refillLoop_long cfg sched
            hv hs S y (by omega) (pf1 + 1) r c hr hbuf (by omega)
          unfold process
          rw [if_neg (by rw [hdone]; simp)]
          rw [hloop]
          simp only []
          rw [if_neg (by simp [midState])]
          have hpos0 : (midState S y r1 0 false c1).posOff + cfg.min_size =
              cfg.min_size := by
            show 0 + cfg.min_size = cfg.min_size
            omega
          rw [hpos0]
          have hstA : ({ midState S y r1 0 false c1 with
              posOff := cfg.min_size } : ChunkerState) =
              midState S y r1 cfg.min_size false c1 := rfl
          rw [hstA]
          have hsum : buzhashList cfg.table
              (((midState S y r1 0 false c1).pending.drop cfg.min_size).take
                cfg.window_size) = hashAt cfg (S.drop y) cfg.min_size := by
            show hashAt cfg ((S.drop y).take r1) cfg.min_size = _
            exact hashAt_prefix cfg (S.drop y) r1 cfg.min_size (by omega)
          rw [hsum]
          have hscan := scanLoop_spec cfg hv sched hs S y (pf1 + 1)
            cfg.min_size r1 c1 hr1b hr1c (by omega) (by omega)
          have hcut : pureCut cfg (S.drop y) =
              match firstMatch cfg (S.drop y) cfg.min_size
                (min (S.length - y) cfg.buf_size - cfg.window_size -
                  cfg.min_size) with
              | some q => q
              | none => min (S.length - y) cfg.buf_size := by
            unfold pureCut
            rw [hTlen, if_neg hshort]
          cases hfm : firstMatch cfg (S.drop y) cfg.min_size
              (min (S.length - y) cfg.buf_size - cfg.window_size -
                cfg.min_size) with
          | some q =>
            rw [hfm] at hscan
            obtain ⟨r2, c2, hrun2, hq1, hq2, hq3⟩ := hscan
            rw [hrun2]
            simp only []
            have hqr : q ≤ r2 := by omega
            unfold processEmit
            rw [if_neg (by
              rw [midState_remaining _ _ _ _ _ _ hq2]
              omega)]
            rw [processCut_mid S y r2 q c2 false hqr hq2]
            have hcutq : pureCut cfg (S.drop y) = q := by
              rw [hcut, hfm]
            rw [hcutq]
            exact ⟨midState S (y + q) (r2 - q) 0 false c2, rfl,
              Or.inr ⟨r2 - q, c2, false, rfl, by omega, by omega, by simp⟩⟩
          | none =>
            rw [hfm] at hscan
            obtain ⟨e2, c2, hrun2, he2⟩ := hscan
            rw [hrun2]
            simp only []
            set M := min (S.length - y) cfg.buf_size with hM
            have hyM : y + M ≤ S.length := by omega
            have hWM : cfg.window_size ≤ M := by omega
            unfold processEmit
            rw [if_pos (by
              rw [midState_remaining _ _ _ _ _ _ hyM]
              omega)]
            have habs : (midState S y M (M - cfg.window_size) e2 c2).posOff +
                (midState S y M (M - cfg.window_size) e2 c2).remaining = M := by
              rw [midState_remaining _ _ _ _ _ _ hyM]
              show M - cfg.window_size + (M - (M - cfg.window_size)) = M
              omega
            rw [habs]
            have hst4 : ({ midState S y M (M - cfg.window_size) e2 c2 with
                posOff := M } : ChunkerState) = midState S y M M e2 c2 := rfl
            rw [hst4]
            rw [processCut_mid S y M M c2 e2 (le_refl M) hyM]
            have hcutM : pureCut cfg (S.drop y) = M := by
              rw [hcut, hfm]
            rw [hcutM]
            refine ⟨midState S (y + M) (M - M) 0 e2 c2, rfl,
              Or.inr ⟨M - M, c2, e2, rfl, by omega, by omega, ?_⟩⟩
            intro he2t
            have := he2 he2t
            constructor
            · omega
            · omega


theorem pureChunks_nil (cfg : ChunkerCfg) : pureChunks cfg [] = [] := by
  rw [pureChunks]

theorem pureChunks_cons (cfg : ChunkerCfg) (T : List Nat) (hT : T ≠ []) :
    pureChunks cfg T =
      T.take (pureCut cfg T) :: pureChunks cfg (T.drop (pureCut cfg T)) := by
  cases T with
  | nil => exact absurd rfl hT
  | cons t ts => rw [pureChunks]

/-- Driver correctness: iterating `process` from any reachable canonical state
produces exactly the chunk list computed by the pure cutter on the unread
suffix, provided the driver fuel covers one iteration per remaining byte. -/
theorem runAux_spec (cfg : ChunkerCfg) (hv : cfg.valid) (sched : Nat → Nat)
    (hs : ∀ k, 1 ≤ sched k) (S : List Nat) (pfuel : Nat)
    (hpf : S.length + cfg.buf_size + 2 ≤ pfuel) :
    ∀ dfuel y r c (e : Bool), y + r ≤ S.length → r ≤ cfg.buf_size →
      (e = true → r = 0 ∧ y = S.length) → S.length - y + 2 ≤ dfuel →
      chunkerRunAux cfg sched pfuel dfuel (midState S y r 0 e c) =
        some (.ok (pureChunks cfg (S.drop y))) := by
  intro dfuel
  induction dfuel with
  | zero =>
    intro y r c e hr hbuf he hdf
    omega
  | succ dfuel ih =>
    intro y r c e hr hbuf he hdf
    have hspec := process_spec cfg hv sched hs S y r c e hr hbuf he pfuel hpf
    by_cases hT : S.drop y = []
    · obtain ⟨st', hstop⟩ := hspec.1 hT
      rw [hT, pureChunks_nil]
      simp only [chunkerRunAux, hstop]
    · obtain ⟨st', hchunk, hrest⟩ := hspec.2 hT
      have hcut1 : 1 ≤ pureCut cfg (S.drop y) := pureCut_pos cfg _ hT
      have hyl : y < S.length := by
        by_contra hcon
        exact hT (List.drop_eq_nil_of_le (by omega))
      rcases hrest with ⟨hdone2, hbytes2, hall⟩ | ⟨r', c', e', rfl, hr', hbuf', he'⟩
      · obtain ⟨df1, rfl⟩ : ∃ df1, dfuel = df1 + 1 := ⟨dfuel - 1, by omega⟩
        have hstop2 : process cfg sched pfuel st' = some (.stop, st') := by
          unfold process
          rw [if_pos hdone2, if_pos hbytes2]
        have hnil : (S.drop y).drop (pureCut cfg (S.drop y)) = [] := by
          apply List.drop_eq_nil_of_le
          rw [List.length_drop]
          omega
        rw [pureChunks_cons cfg _ hT, hnil, pureChunks_nil]
        simp only [chunkerRunAux, hchunk, hstop2]
      · have hrec := ih (y + pureCut cfg (S.drop y)) r' c' e' (by omega) hbuf'
          he' (by omega)
        have hdd : pureChunks cfg (S.drop (y + pureCut cfg (S.drop y))) =
            pureChunks cfg ((S.drop y).drop (pureCut cfg (S.drop y))) := by
          rw [List.drop_drop, Nat.add_comm]
        rw [pureChunks_cons cfg _ hT, ← hdd]
        simp only [chunkerRunAux, hchunk, hrec]

/-- The full machine run equals the pure reference chunking: the chunker is
a function of the input bytes alone, independent of the read scheduler. -/
theorem chunkerRun_eq_pure (cfg : ChunkerCfg) (hv : cfg.valid)
    (sched : Nat → Nat) (hs : ∀ k, 1 ≤ sched k) (S : List Nat) :
    chunkerRun cfg sched S = some (.ok (pureChunks cfg S)) := by
  have h0 : chunkifyInit S = midState S 0 0 0 false 0 := rfl
  have h := runAux_spec cfg hv sched hs S (S.length + cfg.buf_size + 2)
    (le_refl _) (S.length + 2) 0 0 0 false (by omega) (by omega)
    (by simp) (by omega)
  show chunkerRunAux cfg sched (S.length + cfg.buf_size + 2) (S.length + 2)
    (chunkifyInit S) = some (.ok (pureChunks cfg S))
  rw [h0, h, List.drop_zero]

theorem pureCut_le_buf (cfg : ChunkerCfg) (hv : cfg.valid) (T : List Nat) :
    pureCut cfg T ≤ cfg.buf_size := by
  have hW := hv.1
  have hvb := hv.2
  unfold pureCut
  by_cases hshort : T.length < cfg.min_size + cfg.window_size + 1
  · rw [if_pos hshort]
    omega
  · rw [if_neg hshort]
    cases hfm : firstMatch cfg T cfg.min_size
        (min T.length cfg.buf_size - cfg.window_size - cfg.min_size) with
    | some q =>
      show q ≤ cfg.buf_size
      have := firstMatch_lt cfg T _ _ _ hfm
      omega
    | none =>
      show min T.length cfg.buf_size ≤ cfg.buf_size
      omega

theorem pureCut_le_len (cfg : ChunkerCfg) (T : List Nat) :
    pureCut cfg T ≤ T.length := by
  unfold pureCut
  by_cases hshort : T.length < cfg.min_size + cfg.window_size + 1
  · rw [if_pos hshort]
  · rw [if_neg hshort]
    cases hfm : firstMatch cfg T cfg.min_size
        (min T.length cfg.buf_size - cfg.window_size - cfg.min_size) with
    | some q =>
      show q ≤ T.length
      have hlt := firstMatch_lt cfg T _ _ _ hfm
      omega
    | none =>
      show min T.length cfg.buf_size ≤ T.length
      omega

theorem pureCut_ge_min (cfg : ChunkerCfg) (hv : cfg.valid) (T : List Nat)
    (h : ¬ T.length < cfg.min_size + cfg.window_size + 1) :
    cfg.min_size ≤ pureCut cfg T := by
  have hvb := hv.2
  unfold pureCut
  rw [if_neg h]
  cases hfm : firstMatch cfg T cfg.min_size
      (min T.length cfg.buf_size - cfg.window_size - cfg.min_size) with
  | some q =>
    show cfg.min_size ≤ q
    exact firstMatch_ge cfg T _ _ _ hfm
  | none =>
    show cfg.min_size ≤ min T.length cfg.buf_size
    omega

theorem pureChunks_flatten_aux (cfg : ChunkerCfg) :
    ∀ n T, T.length ≤ n → (pureChunks cfg T).flatten = T := by
  intro n
  induction n with
  | zero =>
    intro T hT
    rw [List.eq_nil_of_length_eq_zero (show T.length = 0 by omega), pureChunks_nil]
    rfl
  | succ n ih =>
    intro T hT
    by_cases hnil : T = []
    · rw [hnil, pureChunks_nil]
      rfl
    · have hcut1 : 1 ≤ pureCut cfg T := pureCut_pos cfg T hnil
      have hTpos : 1 ≤ T.length := by
        cases T
        · exact absurd rfl hnil
        · simp
      rw [pureChunks_cons cfg T hnil, List.flatten_cons,
        ih (T.drop (pureCut cfg T)) (by rw [List.length_drop]; omega)]
      exact List.take_append_drop _ T

theorem pureChunks_flatten (cfg : ChunkerCfg) (T : List Nat) :
    (pureChunks cfg T).flatten = T :=
  pureChunks_flatten_aux cfg T.length T (le_refl _)

theorem pureChunks_size_pos_aux (cfg : ChunkerCfg) :
    ∀ n T, T.length ≤ n → ∀ c ∈ pureChunks cfg T, 1 ≤ c.length := by
  intro n
  induction n with
  | zero =>
    intro T hT c hc
    rw [List.eq_nil_of_length_eq_zero (show T.length = 0 by omega), pureChunks_nil] at hc
    exact absurd hc (List.not_mem_nil c)
  | succ n ih =>
    intro T hT c hc
    by_cases hnil : T = []
    · rw [hnil, pureChunks_nil] at hc
      exact absurd hc (List.not_mem_nil c)
    · have hcut1 : 1 ≤ pureCut cfg T := pureCut_pos cfg T hnil
      have hTpos : 1 ≤ T.length := by
        cases T
        · exact absurd rfl hnil
        · simp
      rw [pureChunks_cons cfg T hnil] at hc
      rcases List.mem_cons.mp hc with hc | hc
      · rw [hc, List.length_take]
        omega
      · exact ih (T.drop (pureCut cfg T)) (by rw [List.length_drop]; omega) c hc

theorem pureChunks_size_pos (cfg : ChunkerCfg) (T : List Nat) :
    ∀ c ∈ pureChunks cfg T, 1 ≤ c.length :=
  pureChunks_size_pos_aux cfg T.length T (le_refl _)

theorem pureChunks_size_le_aux (cfg : ChunkerCfg) (hv : cfg.valid) :
    ∀ n T, T.length ≤ n → ∀ c ∈ pureChunks cfg T, c.length ≤ cfg.buf_size := by
  intro n
  induction n with
  | zero =>
    intro T hT c hc
    rw [List.eq_nil_of_length_eq_zero (show T.length = 0 by omega), pureChunks_nil] at hc
    exact absurd hc (List.not_mem_nil c)
  | succ n ih =>
    intro T hT c hc
    by_cases hnil : T = []
    · rw [hnil, pureChunks_nil] at hc
      exact absurd hc (List.not_mem_nil c)
    · have hcut1 : 1 ≤ pureCut cfg T := pureCut_pos cfg T hnil
      rw [pureChunks_cons cfg T hnil] at hc
      rcases List.mem_cons.mp hc with hc | hc
      · rw [hc, List.length_take]
        have := pureCut_le_buf cfg hv T
        omega
      · exact ih (T.drop (pureCut cfg T)) (by rw [List.length_drop]; omega) c hc

theorem pureChunks_size_le (cfg : ChunkerCfg) (hv : cfg.valid) (T : List Nat) :
    ∀ c ∈ pureChunks cfg T, c.length ≤ cfg.buf_size :=
  pureChunks_size_le_aux cfg hv T.length T (le_refl _)

theorem pureChunks_nonfinal_ge_aux (cfg : ChunkerCfg) (hv : cfg.valid) :
    ∀ n T, T.length ≤ n → ∀ i, i + 1 < (pureChunks cfg T).length →
      cfg.min_size ≤ ((pureChunks cfg T).getD i []).length := by
  intro n
  induction n with
  | zero =>
    intro T hT i h
    rw [List.eq_nil_of_length_eq_zero (show T.length = 0 by omega), pureChunks_nil] at h
    simp at h
  | succ n ih =>
    intro T hT i h
    by_cases hnil : T = []
    · rw [hnil, pureChunks_nil] at h
      simp at h
    · have hcut1 : 1 ≤ pureCut cfg T := pureCut_pos cfg T hnil
      rw [pureChunks_cons cfg T hnil] at h ⊢
      cases i with
      | zero =>
        have htl : pureChunks cfg (T.drop (pureCut cfg T)) ≠ [] := by
          intro hcon
          rw [hcon] at h
          simp at h
        have hdrop : T.drop (pureCut cfg T) ≠ [] := by
          intro hcon
          exact htl (by rw [hcon, pureChunks_nil])
        have hcutlt : pureCut cfg T < T.length := by
          by_contra hcon
          exact hdrop (List.drop_eq_nil_of_le (by omega))
        by_cases hshort : T.length < cfg.min_size + cfg.window_size + 1
        · exfalso
          have heq : pureCut cfg T = T.length := by
            unfold pureCut
            rw [if_pos hshort]
          omega
        · have hge : cfg.min_size ≤ pureCut cfg T := pureCut_ge_min cfg hv T hshort
          rw [List.getD_cons_zero, List.length_take]
          omega
      | succ i =>
        rw [List.getD_cons_succ]
        rw [List.length_cons] at h
        exact ih (T.drop (pureCut cfg T))
          (by rw [List.length_drop]; omega) i (by omega)

theorem pureChunks_nonfinal_ge (cfg : ChunkerCfg) (hv : cfg.valid)
    (T : List Nat) (i : Nat) (h : i + 1 < (pureChunks cfg T).length) :
    cfg.min_size ≤ ((pureChunks cfg T).getD i []).length :=
  pureChunks_nonfinal_ge_aux cfg hv T.length T (le_refl _) i h

/-! ## Classification bridge lemmas -/

theorem classifyNext_reconstruct (raw : List Nat) :
    reconstructChunk (classifyNext raw) = raw := by
  unfold classifyNext
  by_cases hz : zerosStartswith raw
  · rw [if_pos hz]
    show List.replicate raw.length 0 = raw
    exact (allZero_eq_replicate raw hz).symm
  · rw [if_neg hz]
    rfl

theorem classifyNext_size (raw : List Nat) :
    (classifyNext raw).size = raw.length := by
  unfold classifyNext
  by_cases hz : zerosStartswith raw
  · rw [if_pos hz]
  · rw [if_neg hz]

theorem reconstruct_map_classify (raws : List (List Nat)) :
    reconstruct (raws.map classifyNext) = raws.flatten := by
  induction raws with
  | nil => rfl
  | cons r rs ih =>
    show reconstructChunk (classifyNext r) ++ reconstruct (rs.map classifyNext) =
      r ++ rs.flatten
    rw [classifyNext_reconstruct, ih]

theorem size_getD_map (raws : List (List Nat)) :
    ∀ i, i < raws.length →
      ((raws.map classifyNext).getD i ⟨Allocation.CH_DATA, 0, none⟩).size =
        (raws.getD i []).length := by
  induction raws with
  | nil =>
    intro i hi
    simp at hi
  | cons r rs ih =>
    intro i hi
    cases i with
    | zero =>
      show (classifyNext r).size = r.length
      exact classifyNext_size r
    | succ i =>
      rw [List.map_cons, List.getD_cons_succ, List.getD_cons_succ]
      exact ih i (by simp at hi; omega)

/-! ## Positivity of the failing chunker's emissions -/

theorem failPull_chunk_pos (block_size : Nat) (map : List Char)
    (st : FailingState) (f : FFile) (c : ChunkRec) (st2 : FailingState)
    (f2 : FFile) (h : failPull block_size map st f = (.chunk c, st2, f2)) :
    0 < c.size := by
  simp only [failPull] at h
  split at h
  · simp at h
  · split at h
    · split at h
      · split at h
        · simp at h
        · split at h
          · simp only [Prod.mk.injEq, FailPull.chunk.injEq] at h
            rw [← h.1]
            show 0 < (f.read block_size).1.length
            omega
          · simp at h
      · split at h
        · simp at h
        · split at h
          · simp only [Prod.mk.injEq, FailPull.chunk.injEq] at h
            rw [← h.1]
            show 0 < (f.read block_size).1.length
            omega
          · simp at h
    · simp at h

theorem failingRun_eq_chunk (block_size : Nat) (map : List Char) (fuel : Nat)
    (st : FailingState) (f : FFile) (c : ChunkRec) (st3 : FailingState)
    (f3 : FFile) (hp : failPull block_size map st f = (.chunk c, st3, f3)) :
    failingRun block_size map (fuel + 1) st f =
      match failingRun block_size map fuel st3 f3 with
      | none => none
      | some (cs, r) => some (c :: cs, r) := by
  rw [failingRun, hp]

theorem failingRun_eq_stop (block_size : Nat) (map : List Char) (fuel : Nat)
    (st : FailingState) (f : FFile) (p : FailPull) (st3 : FailingState)
    (f3 : FFile) (hp : failPull block_size map st f = (p, st3, f3))
    (hnc : ∀ c, p ≠ .chunk c) :
    failingRun block_size map (fuel + 1) st f = some ([], p) := by
  rw [failingRun, hp]
  cases p with
  | chunk c => exact absurd rfl (hnc c)
  | eio => rfl
  | valueError => rfl
  | finished => rfl

theorem failingRun_pos (block_size : Nat) (map : List Char) :
    ∀ fuel st f cs r, failingRun block_size map fuel st f = some (cs, r) →
      ∀ c ∈ cs, 0 < c.size := by
  intro fuel
  induction fuel with
  | zero =>
    intro st f cs r h
    exact absurd h (by rw [failingRun]; simp)
  | succ fuel ih =>
    intro st f cs r h
    rcases hp : failPull block_size map st f with ⟨p, st3, f3⟩
    cases p with
    | chunk c0 =>
      rw [failingRun_eq_chunk block_size map fuel st f c0 st3 f3 hp] at h
      cases hr : failingRun block_size map fuel st3 f3 with
      | none =>
        rw [hr] at h
        exact absurd h (by simp)
      | some pr =>
        rcases pr with ⟨cs0, r0⟩
        rw [hr] at h
        simp only [Option.some.injEq, Prod.mk.injEq] at h
        intro c hc
        rw [← h.1] at hc
        rcases List.mem_cons.mp hc with rfl | hc
        · exact failPull_chunk_pos block_size map st f c st3 f3 hp
        · exact ih st3 f3 cs0 r0 hr c hc
    | eio =>
      rw [failingRun_eq_stop block_size map fuel st f _ st3 f3 hp
        (by intro c hc; exact FailPull.noConfusion hc)] at h
      simp only [Option.some.injEq, Prod.mk.injEq] at h
      intro c hc
      rw [← h.1] at hc
      exact absurd hc (List.not_mem_nil c)
    | valueError =>
      rw [failingRun_eq_stop block_size map fuel st f _ st3 f3 hp
        (by intro c hc; exact FailPull.noConfusion hc)] at h
      simp only [Option.some.injEq, Prod.mk.injEq] at h
      intro c hc
      rw [← h.1] at hc
      exact absurd hc (List.not_mem_nil c)
    | finished =>
      rw [failingRun_eq_stop block_size map fuel st f _ st3 f3 hp
        (by intro c hc; exact FailPull.noConfusion hc)] at h
      simp only [Option.some.injEq, Prod.mk.injEq] at h
      intro c hc
      rw [← h.1] at hc
      exact absurd hc (List.not_mem_nil c)

/-! ## Per-chunk classification facts -/

theorem classifyNext_spec (raw : List Nat) :
    ((classifyNext raw).allocation = Allocation.CH_ALLOC ↔
      zerosStartswith (reconstructChunk (classifyNext raw)) = true) ∧
    ((classifyNext raw).allocation = Allocation.CH_ALLOC →
      (classifyNext raw).data = none) ∧
    ((classifyNext raw).allocation = Allocation.CH_DATA →
      (classifyNext raw).data = some (reconstructChunk (classifyNext raw))) ∧
    (classifyNext raw).size = (reconstructChunk (classifyNext raw)).length := by
  rw [classifyNext_reconstruct, classifyNext_size]
  unfold classifyNext
  by_cases hz : zerosStartswith raw
  · rw [if_pos hz]
    refine ⟨⟨fun _ => hz, fun _ => rfl⟩, fun _ => rfl, fun hD => ?_, rfl⟩
    exact Allocation.noConfusion hD
  · rw [if_neg hz]
    refine ⟨⟨fun hA => ?_, fun hzz => absurd hzz hz⟩, fun hA => ?_,
      fun _ => rfl, rfl⟩
    · exact Allocation.noConfusion hA
    · exact Allocation.noConfusion hA

theorem chunkOK_alloc_iff (c : ChunkRec) (hok : chunkOK c)
    (hnh : c.allocation ≠ Allocation.CH_HOLE) :
    (c.allocation = Allocation.CH_ALLOC ↔
      zerosStartswith (reconstructChunk c) = true) ∧
    (c.allocation = Allocation.CH_ALLOC → c.data = none) ∧
    (c.allocation = Allocation.CH_DATA → c.data = some (reconstructChunk c)) ∧
    c.size = (reconstructChunk c).length := by
  obtain ⟨hpos, hsz, hall, hdat, hhole⟩ := hok
  refine ⟨⟨fun hA => (hall hA).2, fun hzz => ?_⟩, fun hA => (hall hA).1,
    fun hD => (hdat hD).1, hsz⟩
  cases hA : c.allocation with
  | CH_ALLOC => rfl
  | CH_DATA =>
    have hfalse := (hdat hA).2
    rw [hzz] at hfalse
    exact Bool.noConfusion hfalse
  | CH_HOLE => exact absurd hA hnh

/-! ## Claim theorems -/

/-- C1 (amended): for the content-defined chunker (any valid configuration,
any positive read scheduler) and for the fixed chunker (with its default
whole-file map, or with any valid sparse file map), concatenating the emitted
chunks in emission order — the payload for `DATA` chunks, `size` zero bytes
for `ALLOC`/`HOLE` chunks — reconstructs the input exactly, and the sum of
`size` over the emitted chunks equals the input's logical length.  The
failing chunker does not satisfy this: a failing pull consumes its block
before raising, so those bytes appear in no emitted chunk (see the
counterexample). -/
theorem C1_reconstruction (cfg : ChunkerCfg) (hv : cfg.valid)
    (sched : Nat → Nat) (hs : ∀ k, 1 ≤ sched k) (S : List Nat)
    (block_size header_size : Nat) (hb : 1 ≤ block_size)
    (hS : S.length ≤ 2 ^ 62) (fmap : List FixedRange)
    (hok : RangesOK S 0 fmap) (hcov : S.length ≤ rangesEnd 0 fmap) :
    (∃ cs, chunkerRunChunks cfg sched S = some cs ∧
       reconstruct cs = S ∧ totalSize cs = S.length) ∧
    (∃ cs, chunkerFixedRun block_size header_size S = some cs ∧
       reconstruct cs = S ∧ totalSize cs = S.length) ∧
    (∃ cs, chunkerFixedRunMap block_size fmap S = some cs ∧
       reconstruct cs = S ∧ totalSize cs = S.length) := by
  refine ⟨?_, ?_, ?_⟩
  · have hrec : reconstruct ((pureChunks cfg S).map classifyNext) = S := by
      rw [reconstruct_map_classify, pureChunks_flatten]
    have hsz : ∀ c ∈ (pureChunks cfg S).map classifyNext,
        c.size = (reconstructChunk c).length := by
      intro c hc
      obtain ⟨raw, hraw, rfl⟩ := List.mem_map.mp hc
      rw [classifyNext_size, classifyNext_reconstruct]
    refine ⟨(pureChunks cfg S).map classifyNext, ?_, hrec, ?_⟩
    · unfold chunkerRunChunks
      rw [chunkerRun_eq_pure cfg hv sched hs S]
    · rw [totalSize_eq_length_reconstruct _ hsz, hrec]
  · obtain ⟨cs, hrun, hrec, htot, _⟩ :=
      chunkerFixedRun_spec block_size header_size hb S hS
    exact ⟨cs, hrun, hrec, htot⟩
  · obtain ⟨cs, hrun, hrec, htot, _⟩ :=
      chunkerFixedRunMap_spec block_size hb fmap S hok hcov
    exact ⟨cs, hrun, hrec, htot⟩

/-- C1 counterexample: `ChunkerFailing(block_size=4, map="E")` on the 4-byte
source `[1, 1, 1, 1]` reads and consumes all 4 bytes, raises `EIO`, and
emits no chunk, so the concatenation of the emitted chunks is empty (not the
source) and the sizes sum to `0` (not `4`). -/
theorem C1_counterexample :
    failingRun 4 ['E'] 3 ⟨0, false⟩ ⟨[1, 1, 1, 1], 0⟩ =
      some ([], FailPull.eio) ∧
    (failPull 4 ['E'] ⟨0, false⟩ ⟨[1, 1, 1, 1], 0⟩).2.2.pos = 4 ∧
    reconstruct [] ≠ [1, 1, 1, 1] ∧ totalSize [] ≠ 4 := by
  exact ⟨by decide, by decide, by decide, by decide⟩

theorem C1_reconstruction_witness :
    (∃ cs, chunkerRunChunks ⟨0, 0, 3, 2, 2⟩ (fun _ => 1) [5, 6, 0, 0] =
        some cs ∧ reconstruct cs = [5, 6, 0, 0] ∧ totalSize cs = 4) ∧
    (∃ cs, chunkerFixedRun 2 0 [5, 6, 0, 0] = some cs ∧
       reconstruct cs = [5, 6, 0, 0] ∧ totalSize cs = 4) ∧
    (∃ cs, chunkerFixedRunMap 2 [⟨0, 2, true⟩, ⟨2, 2, false⟩] [5, 6, 0, 0] =
        some cs ∧ reconstruct cs = [5, 6, 0, 0] ∧ totalSize cs = 4) :=
  C1_reconstruction ⟨0, 0, 3, 2, 2⟩ ⟨by decide, by decide⟩ (fun _ => 1)
    (fun _ => le_refl 1) [5, 6, 0, 0] 2 0 (by decide) (by decide)
    [⟨0, 2, true⟩, ⟨2, 2, false⟩]
    ⟨rfl, fun h => Bool.noConfusion h, rfl, fun _ => ⟨by decide, by decide⟩,
      trivial⟩
    (by decide)

/-- C2: for a fixed configuration and fixed input bytes the sequence of
emitted chunks is identical across any two runs, regardless of how the byte
source partitions the input into `read()` results (any two positive
per-call read schedulers give equal runs, e.g. one single huge read versus
17-byte reads). -/
theorem C2_read_granularity_independent (cfg : ChunkerCfg) (hv : cfg.valid)
    (sched1 sched2 : Nat → Nat) (h1 : ∀ k, 1 ≤ sched1 k)
    (h2 : ∀ k, 1 ≤ sched2 k) (S : List Nat) :
    chunkerRun cfg sched1 S = chunkerRun cfg sched2 S := by
  rw [chunkerRun_eq_pure cfg hv sched1 h1 S,
    chunkerRun_eq_pure cfg hv sched2 h2 S]

theorem C2_read_granularity_independent_witness :
    chunkerRun ⟨0, 0, 3, 2, 2⟩ (fun _ => 2 ^ 62) [1, 2, 3, 4, 5, 6, 7, 8, 9] =
      chunkerRun ⟨0, 0, 3, 2, 2⟩ (fun _ => 17) [1, 2, 3, 4, 5, 6, 7, 8, 9] :=
  C2_read_granularity_independent ⟨0, 0, 3, 2, 2⟩ ⟨by decide, by decide⟩
    (fun _ => 2 ^ 62) (fun _ => 17) (fun _ => Nat.one_le_two_pow)
    (fun _ => by show 1 ≤ 17; omega) [1, 2, 3, 4, 5, 6, 7, 8, 9]

/-- C3: under the construction precondition `W + min_size + 1 ≤ max_size`
(where `max_size = buf_size = 2 ^ chunk_max_exp`), every chunk emitted by the
content-defined chunker has positive size at most `max_size`, and every chunk
except possibly the final one has size at least `min_size`. -/
theorem C3_chunk_size_bounds (cfg : ChunkerCfg) (hv : cfg.valid)
    (sched : Nat → Nat) (hs : ∀ k, 1 ≤ sched k) (S : List Nat) :
    ∃ cs, chunkerRunChunks cfg sched S = some cs ∧
      (∀ c ∈ cs, 0 < c.size ∧ c.size ≤ cfg.buf_size) ∧
      (∀ i, i + 1 < cs.length →
        cfg.min_size ≤ (cs.getD i ⟨Allocation.CH_DATA, 0, none⟩).size) := by
  refine ⟨(pureChunks cfg S).map classifyNext, ?_, ?_, ?_⟩
  · unfold chunkerRunChunks
    rw [chunkerRun_eq_pure cfg hv sched hs S]
  · intro c hc
    obtain ⟨raw, hraw, rfl⟩ := List.mem_map.mp hc
    rw [classifyNext_size]
    exact ⟨pureChunks_size_pos cfg S raw hraw,
      pureChunks_size_le cfg hv S raw hraw⟩
  · intro i h
    rw [List.length_map] at h
    rw [size_getD_map (pureChunks cfg S) i (by omega)]
    exact pureChunks_nonfinal_ge cfg hv S i h

theorem C3_chunk_size_bounds_witness :
    ∃ cs, chunkerRunChunks ⟨0, 0, 3, 2, 2⟩ (fun _ => 1) [1, 2, 3, 4, 5] =
        some cs ∧
      (∀ c ∈ cs, 0 < c.size ∧ c.size ≤ 8) ∧
      (∀ i, i + 1 < cs.length →
        1 ≤ (cs.getD i ⟨Allocation.CH_DATA, 0, none⟩).size) :=
  C3_chunk_size_bounds ⟨0, 0, 3, 2, 2⟩ ⟨by decide, by decide⟩ (fun _ => 1)
    (fun _ => le_refl 1) [1, 2, 3, 4, 5]

/-- C5: a chunk emitted by the content-defined chunker or by the fixed
chunker over a data range is `ALLOC` (payload omitted) exactly when the bytes
it covers are all zero, and `DATA` (payload attached) otherwise; the
classification never changes the chunk sizes, which for the content-defined
chunker are exactly the pure cut sizes computed before classification. -/
theorem C5_alloc_iff_zero (cfg : ChunkerCfg) (hv : cfg.valid)
    (sched : Nat → Nat) (hs : ∀ k, 1 ≤ sched k) (S : List Nat)
    (block_size header_size : Nat) (hb : 1 ≤ block_size)
    (hS : S.length ≤ 2 ^ 62) :
    (∃ cs, chunkerRunChunks cfg sched S = some cs ∧
       cs.map ChunkRec.size = (pureChunks cfg S).map List.length ∧
       ∀ c ∈ cs,
         (c.allocation = Allocation.CH_ALLOC ↔
           zerosStartswith (reconstructChunk c) = true) ∧
         (c.allocation = Allocation.CH_ALLOC → c.data = none) ∧
         (c.allocation = Allocation.CH_DATA →
           c.data = some (reconstructChunk c)) ∧
         c.size = (reconstructChunk c).length) ∧
    (∃ cs, chunkerFixedRun block_size header_size S = some cs ∧
       ∀ c ∈ cs, c.allocation ≠ Allocation.CH_HOLE →
         (c.allocation = Allocation.CH_ALLOC ↔
           zerosStartswith (reconstructChunk c) = true) ∧
         (c.allocation = Allocation.CH_ALLOC → c.data = none) ∧
         (c.allocation = Allocation.CH_DATA →
           c.data = some (reconstructChunk c)) ∧
         c.size = (reconstructChunk c).length) := by
  refine ⟨?_, ?_⟩
  · refine ⟨(pureChunks cfg S).map classifyNext, ?_, ?_, ?_⟩
    · unfold chunkerRunChunks
      rw [chunkerRun_eq_pure cfg hv sched hs S]
    · rw [List.map_map]
      exact List.map_congr_left (fun raw _ => classifyNext_size raw)
    · intro c hc
      obtain ⟨raw, hraw, rfl⟩ := List.mem_map.mp hc
      exact classifyNext_spec raw
  · obtain ⟨cs, hrun, _, _, hok⟩ :=
      chunkerFixedRun_spec block_size header_size hb S hS
    exact ⟨cs, hrun, fun c hc hnh => chunkOK_alloc_iff c (hok c hc) hnh⟩

theorem C5_alloc_iff_zero_witness :
    (∃ cs, chunkerRunChunks ⟨0, 0, 3, 2, 2⟩ (fun _ => 1) [0, 0, 0, 7] =
        some cs ∧
       cs.map ChunkRec.size =
         (pureChunks ⟨0, 0, 3, 2, 2⟩ [0, 0, 0, 7]).map List.length ∧
       ∀ c ∈ cs,
         (c.allocation = Allocation.CH_ALLOC ↔
           zerosStartswith (reconstructChunk c) = true) ∧
         (c.allocation = Allocation.CH_ALLOC → c.data = none) ∧
         (c.allocation = Allocation.CH_DATA →
           c.data = some (reconstructChunk c)) ∧
         c.size = (reconstructChunk c).length) ∧
    (∃ cs, chunkerFixedRun 2 0 [0, 0, 0, 7] = some cs ∧
       ∀ c ∈ cs, c.allocation ≠ Allocation.CH_HOLE →
         (c.allocation = Allocation.CH_ALLOC ↔
           zerosStartswith (reconstructChunk c) = true) ∧
         (c.allocation = Allocation.CH_ALLOC → c.data = none) ∧
         (c.allocation = Allocation.CH_DATA →
           c.data = some (reconstructChunk c)) ∧
         c.size = (reconstructChunk c).length) :=
  C5_alloc_iff_zero ⟨0, 0, 3, 2, 2⟩ ⟨by decide, by decide⟩ (fun _ => 1)
    (fun _ => le_refl 1) [0, 0, 0, 7] 2 0 (by decide) (by decide)

/-- C9: every chunk emitted by any of the three chunkers has size strictly
greater than 0: the content-defined chunker's cuts are positive, the fixed
chunker's emission sites are guarded by `0 < got`, and the failing chunker
yields only on a nonempty read. -/
theorem C9_positive_chunk_sizes (cfg : ChunkerCfg) (hv : cfg.valid)
    (sched : Nat → Nat) (hs : ∀ k, 1 ≤ sched k) (S : List Nat)
    (block_size header_size : Nat) (hb : 1 ≤ block_size)
    (hS : S.length ≤ 2 ^ 62) :
    (∃ cs, chunkerRunChunks cfg sched S = some cs ∧ ∀ c ∈ cs, 0 < c.size) ∧
    (∃ cs, chunkerFixedRun block_size header_size S = some cs ∧
       ∀ c ∈ cs, 0 < c.size) ∧
    (∀ bs2 fmap2 fuel st f cs r,
       failingRun bs2 fmap2 fuel st f = some (cs, r) → ∀ c ∈ cs, 0 < c.size) := by
  refine ⟨?_, ?_, ?_⟩
  · refine ⟨(pureChunks cfg S).map classifyNext, ?_, ?_⟩
    · unfold chunkerRunChunks
      rw [chunkerRun_eq_pure cfg hv sched hs S]
    · intro c hc
      obtain ⟨raw, hraw, rfl⟩ := List.mem_map.mp hc
      rw [classifyNext_size]
      exact pureChunks_size_pos cfg S raw hraw
  · obtain ⟨cs, hrun, _, _, hok⟩ :=
      chunkerFixedRun_spec block_size header_size hb S hS
    exact ⟨cs, hrun, fun c hc => (hok c hc).1⟩
  · intro bs2 fmap2 fuel st f cs r h
    exact failingRun_pos bs2 fmap2 fuel st f cs r h

theorem C9_positive_chunk_sizes_witness :
    (∃ cs, chunkerRunChunks ⟨0, 0, 3, 2, 2⟩ (fun _ => 1) [9, 8, 7] = some cs ∧
       ∀ c ∈ cs, 0 < c.size) ∧
    (∃ cs, chunkerFixedRun 2 0 [9, 8, 7] = some cs ∧ ∀ c ∈ cs, 0 < c.size) ∧
    (∀ bs2 fmap2 fuel st f cs r,
       failingRun bs2 fmap2 fuel st f = some (cs, r) →
         ∀ c ∈ cs, 0 < c.size) :=
  C9_positive_chunk_sizes ⟨0, 0, 3, 2, 2⟩ ⟨by decide, by decide⟩ (fun _ => 1)
    (fun _ => le_refl 1) [9, 8, 7] 2 0 (by decide) (by decide)

end BorgChunker
